import Mathlib

/-!
Shallow embedding of the cabrillo-log repository.

Covered code:
* `cabrillo-log/src/lib.rs`: the Cabrillo parser (`CabrilloLog::parse`,
  `parse_qso_line`), the validator (`validate`, `validate_qso`,
  `is_valid_callsign`, `is_valid_band`, `is_valid_mode`) and the serializer
  (the `fmt::Display` implementation).
* `enricher/src/lib.rs`: `enrich_callsign`, `enrich_callsign2`,
  `get_all_prefixes_descending`.
* `enricher/build.rs`: the alias-key cleaning that builds the prefix index.

Rust strings are modelled as lists of Unicode scalar values (`List Char`).
Where the Rust code works with byte offsets (`str::len`, range slicing in
`get_all_prefixes_descending`) the UTF-8 byte length is computed explicitly
with `Char.utf8Size`, so that slicing at a non-character-boundary byte index
is represented faithfully (as a panic).  The `HashMap` of headers is
modelled as an association list kept sorted by key: the map's iteration
order is unobservable in the source because the serializer sorts the keys
before printing, so the sorted list realizes exactly the observable
behaviour (lookup, insert-overwrite, sorted iteration).  `chrono`'s
`NaiveDate`/`NaiveTime` with the format strings `%Y-%m-%d` and `%H%M` are
modelled by explicit record types with the documented parse/format
behaviour of those directives.
-/

/-- Rust `&str` / `String`, as its sequence of Unicode scalar values. -/
abbrev RStr := List Char

/-- The Unicode White_Space code points: the set accepted by Rust's
`char::is_whitespace`, which `str::trim`, `str::lines` handling aside, and
`str::split_whitespace` use. -/
def wsCodes : List Nat :=
  [9, 10, 11, 12, 13, 32, 133, 160, 5760, 8192, 8193, 8194, 8195, 8196,
   8197, 8198, 8199, 8200, 8201, 8202, 8232, 8233, 8239, 8287, 12288]

/-- Rust `char::is_whitespace`. -/
def isRustWs (c : Char) : Bool := wsCodes.contains c.toNat

/-- Rust `str::trim_start`. -/
def trimStart (s : RStr) : RStr := s.dropWhile isRustWs

/-- Rust `str::trim_end`. -/
def trimEnd (s : RStr) : RStr := (s.reverse.dropWhile isRustWs).reverse

/-- Rust `str::trim`. -/
def trim (s : RStr) : RStr := trimStart (trimEnd s)

/-- Helper for `splitWs`: `cur` is the token being accumulated. -/
def splitWsAux : RStr → RStr → List RStr
  | cur, [] => if cur = [] then [] else [cur]
  | cur, c :: t =>
    if isRustWs c then
      if cur = [] then splitWsAux [] t else cur :: splitWsAux [] t
    else splitWsAux (cur ++ [c]) t

/-- Rust `str::split_whitespace`: the maximal whitespace-free fragments. -/
def splitWs (s : RStr) : List RStr := splitWsAux [] s

/-- Drop one trailing carriage return, as `str::lines` does before each
line feed. -/
def stripCr (l : RStr) : RStr := if l.getLast? = some '\r' then l.dropLast else l

/-- Helper for `linesOf`: `cur` is the line being accumulated. -/
def linesAux : RStr → RStr → List RStr
  | cur, [] => if cur = [] then [] else [cur]
  | cur, c :: t =>
    if c = '\n' then stripCr cur :: linesAux [] t else linesAux (cur ++ [c]) t

/-- Rust `str::lines`: split at line feeds, dropping one carriage return
before each line feed; a final fragment without a terminator is kept as is,
and a trailing terminator produces no empty final line. -/
def linesOf (s : RStr) : List RStr := linesAux [] s

/-- Rust `str::split_once(':')`: the parts before and after the first
colon, or `none` when there is no colon. -/
def splitOnceColon : RStr → Option (RStr × RStr)
  | [] => none
  | c :: t =>
    if c = ':' then some ([], t)
    else (splitOnceColon t).map (fun p => (c :: p.1, p.2))

/-- Rust `[&str]::join(" ")`. -/
def joinSpace : List RStr → RStr
  | [] => []
  | [t] => t
  | t :: u :: rest => t ++ ' ' :: joinSpace (u :: rest)

/-- Rust format-string left justification `{:<w}`: pad on the right with
spaces up to width `w` (never truncating). -/
def pad (w : Nat) (s : RStr) : RStr := s ++ List.replicate (w - s.length) ' '

/-! ### Decimal digits

Helpers for the numeric fields of `chrono`'s `%Y-%m-%d` / `%H%M`
directives: zero-padded printing and flexible-width digit parsing. -/

/-- Numeric value of a decimal digit character. -/
def digitVal (c : Char) : Nat := c.toNat - 48

/-- Value of a big-endian string of decimal digits (leading zeros allowed). -/
def valOfDigitChars (l : RStr) : Nat := l.foldl (fun a c => 10 * a + digitVal c) 0

/-- Decimal rendering of a natural number (no padding, no sign). -/
def natChars (n : Nat) : RStr :=
  if n = 0 then ['0'] else ((Nat.digits 10 n).map Nat.digitChar).reverse

/-- Two-digit zero-padded rendering, for values below one hundred. -/
def pad2 (n : Nat) : RStr := [Nat.digitChar (n / 10), Nat.digitChar (n % 10)]

/-- Four-digit zero-padded rendering, for values below ten thousand. -/
def pad4 (n : Nat) : RStr :=
  [Nat.digitChar (n / 1000), Nat.digitChar (n / 100 % 10),
   Nat.digitChar (n / 10 % 10), Nat.digitChar (n % 10)]

/-! ### chrono dates and times -/

/-- `chrono::NaiveDate`, restricted to the fields the repository uses
(a proleptic Gregorian calendar date). -/
structure NaiveDate where
  year : Int
  month : Nat
  day : Nat
deriving DecidableEq

/-- `chrono::NaiveTime` at minute precision, as produced and printed by the
`%H%M` format the repository uses. -/
structure NaiveTime where
  hour : Nat
  minute : Nat
deriving DecidableEq

/-- Proleptic Gregorian leap-year rule, as `chrono` implements it. -/
def isLeapYear (y : Int) : Bool := y % 4 = 0 ∧ (y % 100 ≠ 0 ∨ y % 400 = 0)

/-- Days of a month of the proleptic Gregorian calendar. -/
def daysInMonth (y : Int) (m : Nat) : Nat :=
  if m = 2 then (if isLeapYear y then 29 else 28)
  else if m = 4 ∨ m = 6 ∨ m = 9 ∨ m = 11 then 30
  else 31

/-- The dates `chrono::NaiveDate::from_ymd_opt` accepts: a real calendar
date with the year inside chrono's representable range. -/
def validDate (d : NaiveDate) : Bool :=
  1 ≤ d.month ∧ d.month ≤ 12 ∧ 1 ≤ d.day ∧ d.day ≤ daysInMonth d.year d.month
    ∧ -262144 ≤ d.year ∧ d.year ≤ 262143

/-- The times of day at minute precision. -/
def validTime (t : NaiveTime) : Bool := t.hour ≤ 23 ∧ t.minute ≤ 59

/-- The field-extraction phase of `chrono` parsing with `"%Y-%m-%d"`: the
year is an optionally signed digit run (at most four digits when
unsigned), month and day are one- or two-digit runs, the separators are
literal and the whole input must be consumed. -/
def dateParts (s : RStr) : Option (Int × Nat × Nat) :=
  let signed : Option Bool :=
    if s.head? = some '-' then some true
    else if s.head? = some '+' then some false
    else none
  let s1 := match signed with
    | some _ => s.tail
    | none => s
  let yall := s1.takeWhile Char.isDigit
  let yds := match signed with
    | some _ => yall
    | none => yall.take 4
  if yds = [] then none else
  match s1.drop yds.length with
  | c2 :: r2 =>
    if c2 = '-' then
      let mds := (r2.takeWhile Char.isDigit).take 2
      if mds = [] then none else
      match r2.drop mds.length with
      | c4 :: r4 =>
        if c4 = '-' then
          let dds := (r4.takeWhile Char.isDigit).take 2
          if dds = [] then none else
          if r4.drop dds.length ≠ [] then none else
          let y : Int :=
            if signed = some true then -(valOfDigitChars yds : Int)
            else (valOfDigitChars yds : Int)
          some (y, valOfDigitChars mds, valOfDigitChars dds)
        else none
      | [] => none
    else none
  | [] => none

/-- `chrono` parsing with the format string `"%Y-%m-%d"`, as
`NaiveDate::parse_from_str` uses it: the extracted fields must form a
valid date. -/
def parseDateStr (s : RStr) : Option NaiveDate :=
  match dateParts s with
  | none => none
  | some (y, m, day) =>
    let d : NaiveDate := ⟨y, m, day⟩
    if validDate d then some d else none

/-- The field-extraction phase of `chrono` parsing with `"%H%M"`: two
adjacent one- or two-digit runs (the first read greedily) and full
consumption. -/
def timeParts (s : RStr) : Option (Nat × Nat) :=
  let hds := (s.takeWhile Char.isDigit).take 2
  if hds = [] then none else
  let r1 := s.drop hds.length
  let mds := (r1.takeWhile Char.isDigit).take 2
  if mds = [] then none else
  if r1.drop mds.length ≠ [] then none else
  some (valOfDigitChars hds, valOfDigitChars mds)

/-- `chrono` parsing with the format string `"%H%M"`, as
`NaiveTime::parse_from_str` uses it: the extracted fields must form a
valid time of day. -/
def parseTimeStr (s : RStr) : Option NaiveTime :=
  match timeParts s with
  | none => none
  | some (hh, mm) =>
    let t : NaiveTime := ⟨hh, mm⟩
    if validTime t then some t else none

/-- `chrono` formatting of the `%Y` directive: zero-padded to four digits,
with an explicit sign for years outside `0..=9999`. -/
def formatYear (y : Int) : RStr :=
  if y < 0 then '-' :: (if y.natAbs ≤ 9999 then pad4 y.natAbs else natChars y.natAbs)
  else if y ≤ 9999 then pad4 y.toNat
  else '+' :: natChars y.toNat

/-- `chrono` formatting with `"%Y-%m-%d"` (month and day zero-padded to
two digits). -/
def formatDate (d : NaiveDate) : RStr :=
  formatYear d.year ++ '-' :: pad2 d.month ++ '-' :: pad2 d.day

/-- `chrono` formatting with `"%H%M"` (both fields zero-padded to two
digits). -/
def formatTime (t : NaiveTime) : RStr := pad2 t.hour ++ pad2 t.minute

/-! ### The Cabrillo log data model (`cabrillo-log/src/lib.rs`) -/

/-- One `QSO` record of `cabrillo-log/src/lib.rs`. -/
structure QSO where
  freq : RStr
  mode : RStr
  date : NaiveDate
  time : NaiveTime
  sent_call : RStr
  sent_rst_exch : RStr
  rcvd_call : RStr
  rcvd_rst_exch : RStr
  tx : Option RStr
deriving DecidableEq

/-- `CabrilloLog`: the header map (modelled as a key-sorted association
list, see the file comment) and the ordered contact list. -/
structure CabrilloLog where
  headers : List (RStr × RStr)
  qsos : List QSO
deriving DecidableEq

/-- `CabrilloError` of `cabrillo-log/src/lib.rs`, message payloads
included. -/
inductive CabrilloError where
  | InvalidFormat (msg : RStr)
  | MissingRequiredField (field : RStr)
  | InvalidDate (date : RStr)
  | InvalidTime (time : RStr)
  | InvalidCallsign (call : RStr)
  | ParseError (msg : RStr)
deriving DecidableEq

def msgInvalidQso : RStr := "Invalid QSO line".data
def msgNoCallsign : RStr := "No valid received callsign found".data
def msgNoExch : RStr := "Missing received RST/EXCH".data
def msgBand : RStr := "Invalid band/freq: ".data
def msgMode : RStr := "Invalid mode: ".data
def msgTx : RStr := "Invalid transmitter: ".data

def sSTART : RStr := "START-OF-LOG:".data
def sEND : RStr := "END-OF-LOG:".data
def sQSO : RStr := "QSO:".data
def sXQSO : RStr := "X-QSO:".data
def sZero : RStr := "0".data
def sOne : RStr := "1".data

/-- Rust `is_valid_callsign`: all ASCII, at least one ASCII digit, at
least one ASCII letter, length over two (for an all-ASCII string the byte
length the Rust code compares equals the character count). -/
def is_valid_callsign (call : RStr) : Bool :=
  call.all (fun c => c.toNat < 128) && call.any Char.isDigit
    && call.any Char.isAlpha && decide (2 < call.length)

/-- Exponent suffix of Rust's `f64::from_str` grammar, or the empty
remainder. -/
def expOk (r : RStr) : Bool :=
  match r with
  | [] => true
  | c :: t =>
    if c = 'e' ∨ c = 'E' then
      let t1 := match t with
        | '+' :: u => u
        | '-' :: u => u
        | _ => t
      let ds := t1.takeWhile Char.isDigit
      !ds.isEmpty && (t1.drop ds.length).isEmpty
    else false

/-- Acceptance of Rust's `f64::from_str` (`band.parse::<f64>().is_ok()`):
an optional sign, then case-insensitive `inf`/`infinity`/`nan` or a
significand with at least one digit and an optional exponent. -/
def parsesAsF64 (s : RStr) : Bool :=
  let s1 := match s with
    | '+' :: t => t
    | '-' :: t => t
    | _ => s
  let low := s1.map Char.toLower
  if low = ("inf").data ∨ low = ("infinity").data ∨ low = ("nan").data then true
  else
    let ds1 := s1.takeWhile Char.isDigit
    match s1.drop ds1.length with
    | '.' :: r2 =>
      let ds2 := r2.takeWhile Char.isDigit
      (!ds1.isEmpty || !ds2.isEmpty) && expOk (r2.drop ds2.length)
    | r1 => !ds1.isEmpty && expOk r1

/-- Rust `is_valid_band`: the fixed band whitelist, else any token
`f64::from_str` accepts. -/
def valid_bands : List RStr :=
  (["160", "80", "40", "20", "15", "10", "6", "2", "222", "432", "902",
    "1.2G", "2.3G", "3.4G", "5.7G", "10G", "24G", "47G", "75G", "122G",
    "134G", "241G", "LIGHT", "50", "70", "144"]).map String.data

def is_valid_band (band : RStr) : Bool :=
  valid_bands.contains band || parsesAsF64 band

/-- Rust `is_valid_mode`. -/
def valid_modes : List RStr := (["CW", "PH", "FM", "RY", "DG"]).map String.data

def is_valid_mode (mode : RStr) : Bool := valid_modes.contains mode

/-- Rust `CabrilloLog::parse_qso_line`.  The `while` scan for the received
callsign (first token from index 6 on that passes `is_valid_callsign`)
is the `takeWhile`/`dropWhile` split of the tokens after index 5; the
`parts.len() < 10` guard is `rest.length < 4` once six tokens matched. -/
def parse_qso_line (line : RStr) : Except CabrilloError QSO :=
  match splitWs line with
  | p0 :: p1 :: p2 :: p3 :: p4 :: p5 :: rest =>
    if 4 ≤ rest.length ∧ p0 = sQSO then
      match parseDateStr p3 with
      | none => .error (.InvalidDate p3)
      | some date =>
        match parseTimeStr p4 with
        | none => .error (.InvalidTime p4)
        | some time =>
          let sentToks := rest.takeWhile (fun t => !is_valid_callsign t)
          match rest.dropWhile (fun t => !is_valid_callsign t) with
          | [] => .error (.InvalidFormat msgNoCallsign)
          | rc :: tail =>
            match tail.getLast? with
            | none => .error (.InvalidFormat msgNoExch)
            | some lt =>
              if lt = sZero ∨ lt = sOne then
                .ok ⟨p1, p2, date, time, p5, joinSpace sentToks, rc,
                     joinSpace tail.dropLast, some lt⟩
              else
                .ok ⟨p1, p2, date, time, p5, joinSpace sentToks, rc,
                     joinSpace tail, none⟩
    else .error (.InvalidFormat msgInvalidQso)
  | _ => .error (.InvalidFormat msgInvalidQso)

/-- Byte-lexicographic order on Rust strings (on valid UTF-8 this agrees
with scalar-value lexicographic order), as `Vec::<&String>::sort` uses. -/
def strLt : RStr → RStr → Bool
  | [], [] => false
  | [], _ :: _ => true
  | _ :: _, [] => false
  | a :: s, b :: t => if a < b then true else if b < a then false else strLt s t

/-- `HashMap::insert` on the key-sorted association-list model: place the
pair at its sorted position, overwriting an equal key. -/
def headerInsert : List (RStr × RStr) → RStr → RStr → List (RStr × RStr)
  | [], k, v => [(k, v)]
  | (k', v') :: t, k, v =>
    if strLt k k' then (k, v) :: (k', v') :: t
    else if k = k' then (k, v) :: t
    else (k', v') :: headerInsert t k v

/-- The parser's loop state: the headers so far, the contacts so far and
the `in_header` flag. -/
structure ParseState where
  headers : List (RStr × RStr)
  qsos : List QSO
  inHeader : Bool
deriving DecidableEq

/-- One iteration of the line loop of `CabrilloLog::parse`. -/
def processLine (st : ParseState) (rawLine : RStr) : Except CabrilloError ParseState :=
  let line := trim rawLine
  if line = [] ∨ line.head? = some '#' then .ok st
  else if sSTART.isPrefixOf line ∨ sEND.isPrefixOf line then .ok st
  else if st.inHeader then
    if sQSO.isPrefixOf line then
      match parse_qso_line line with
      | .error e => .error e
      | .ok q => .ok ⟨st.headers, st.qsos ++ [q], false⟩
    else if sXQSO.isPrefixOf line then .ok ⟨st.headers, st.qsos, false⟩
    else
      match splitOnceColon line with
      | some (k, v) => .ok ⟨headerInsert st.headers (trim k) (trim v), st.qsos, st.inHeader⟩
      | none => .ok st
  else if sQSO.isPrefixOf line then
    match parse_qso_line line with
    | .error e => .error e
    | .ok q => .ok ⟨st.headers, st.qsos ++ [q], false⟩
  else .ok st

/-- The `for` loop of `CabrilloLog::parse`: the first line error aborts
(the `?` operator). -/
def processLines : ParseState → List RStr → Except CabrilloError ParseState
  | st, [] => .ok st
  | st, l :: ls =>
    match processLine st l with
    | .error e => .error e
    | .ok st' => processLines st' ls

/-- Rust `CabrilloLog::parse`. -/
def parse (content : RStr) : Except CabrilloError CabrilloLog :=
  match processLines ⟨[], [], true⟩ (linesOf content) with
  | .error e => .error e
  | .ok st => .ok ⟨st.headers, st.qsos⟩

/-- One `QSO:` output line of the `fmt::Display` implementation. -/
def qsoLine (q : QSO) : RStr :=
  ("QSO: ").data ++ q.freq ++ [' '] ++ q.mode ++ [' '] ++ formatDate q.date
    ++ [' '] ++ formatTime q.time ++ [' '] ++ pad 13 q.sent_call ++ [' ']
    ++ pad 8 q.sent_rst_exch ++ [' '] ++ pad 13 q.rcvd_call ++ [' ']
    ++ pad 8 q.rcvd_rst_exch
    ++ (match q.tx with
        | some t => ' ' :: t
        | none => [])

/-- One header output line (`"{}: {}"`). -/
def headerLine (p : RStr × RStr) : RStr := p.1 ++ ':' :: ' ' :: p.2

/-- The serializer's `keys.sort()` on the association-list model: fold the
pairs through sorted insertion. -/
def sortHeaders (hs : List (RStr × RStr)) : List (RStr × RStr) :=
  hs.foldl (fun acc p => headerInsert acc p.1 p.2) []

/-- Concatenate lines, terminating each with a line feed (`writeln!`). -/
def joinLines (ls : List RStr) : RStr := (ls.map (fun l => l ++ ['\n'])).flatten

/-- The `fmt::Display` implementation of `CabrilloLog` (the serializer):
the start marker, the headers sorted by key, the contacts in stored order
and the end marker. -/
def serialize (log : CabrilloLog) : RStr :=
  joinLines ((("START-OF-LOG: 3.0").data)
    :: (sortHeaders log.headers).map headerLine
    ++ log.qsos.map qsoLine ++ [("END-OF-LOG:").data])

/-- Rust `CabrilloLog::validate_qso`: the checks in source order, first
failure wins. -/
def validate_qso (q : QSO) : Except CabrilloError Unit :=
  if q.sent_call = [] ∨ ¬is_valid_callsign q.sent_call then
    .error (.InvalidCallsign q.sent_call)
  else if q.rcvd_call = [] ∨ ¬is_valid_callsign q.rcvd_call then
    .error (.InvalidCallsign q.rcvd_call)
  else if ¬is_valid_band q.freq then
    .error (.InvalidFormat (msgBand ++ q.freq))
  else if ¬is_valid_mode q.mode then
    .error (.InvalidFormat (msgMode ++ q.mode))
  else
    match q.tx with
    | some t =>
      if t ≠ sZero ∧ t ≠ sOne then .error (.InvalidFormat (msgTx ++ t))
      else .ok ()
    | none => .ok ()

/-- The `for` loop of `CabrilloLog::validate` over the contact list. -/
def validateList : List QSO → Except CabrilloError Unit
  | [] => .ok ()
  | q :: t =>
    match validate_qso q with
    | .error e => .error e
    | .ok _ => validateList t

/-- Rust `CabrilloLog::validate`. -/
def validate (log : CabrilloLog) : Except CabrilloError Unit :=
  validateList log.qsos

/-! ### The entity resolver (`enricher/src/lib.rs`)

The `ENTITIES` table is generated at build time from a master-data file
that is not part of the repository, so the resolver is embedded over an
arbitrary association list with the entity payload abstract: every claim
about the resolver quantifies over the index. -/

namespace Enricher

variable {α : Type}

/-- The one Rust panic the resolver can raise: `&str` range slicing at a
byte index that is not a character boundary. -/
inductive RustPanic where
  | sliceCharBoundary
deriving DecidableEq

/-- Rust `str::len`: the UTF-8 byte length. -/
def byteLen (s : RStr) : Nat := (s.map Char.utf8Size).sum

/-- Rust `&s[0..i]`: the characters whose encoding occupies the first `i`
bytes, or `none` (a panic) when `i` is not a character boundary of `s`
(including `i` beyond the end). -/
def sliceTo (s : RStr) (i : Nat) : Option RStr :=
  ((List.range (s.length + 1)).find? (fun k => byteLen (s.take k) = i)).map
    (fun k => s.take k)

/-- Rust `get_all_prefixes_descending`: the slices at byte indices
`s.len()` down to `1`, materialized eagerly (so any bad boundary panics
before any lookup happens). -/
def get_all_prefixes_descending (s : RStr) : Except RustPanic (List RStr) :=
  ((List.range' 1 (byteLen s)).reverse).mapM
    (fun i => match sliceTo s i with
      | none => Except.error RustPanic.sliceCharBoundary
      | some p => Except.ok p)

/-- Rust `enrich_callsign`: the first candidate (longest first) with an
entry in the index (`filter_map(..).next()`). -/
def enrich_callsign (idx : List (RStr × α)) (callsign : RStr) :
    Except RustPanic (Option α) :=
  (get_all_prefixes_descending callsign).map
    (fun ps => ps.findSome? (fun p => List.lookup p idx))

/-- Rust `enrich_callsign2`: fold over all index entries keeping the entry
whose key is a prefix of the callsign with the strictly greatest byte
length seen so far. -/
def enrich_callsign2 (idx : List (RStr × α)) (callsign : RStr) : Option α :=
  (idx.foldl
    (fun best p =>
      if p.1.isPrefixOf callsign ∧ best.2 < byteLen p.1 then (some p.2, byteLen p.1)
      else best)
    ((none : Option α), 0)).1

end Enricher

/-! ### The index builder's alias cleaning (`enricher/build.rs`) -/

namespace EntityBuild

/-- Rust `char::is_alphanumeric` restricted to the ASCII master data the
builder consumes (Unicode alphanumerics outside ASCII do not occur in the
dataset's alias syntax; every character the claims turn on — letters,
digits, `=`, `(`, `)`, `[`, `]`, `/`, `*` — is classified identically). -/
def isAlphanumericRust (c : Char) : Bool := c.isAlphanum

/-- Rust `str::trim_start_matches('=')`: drop every leading `=`. -/
def trimStartMatchesEq (s : RStr) : RStr := s.dropWhile (fun c => c = '=')

/-- The key `build.rs` inserts into the prefix index for one alias token:
the alias filtered to its alphanumeric characters (the push into
`prefixes`), then stripped of leading `=` (the `clean_prefix` at the
insertion). -/
def insertedKey (al : RStr) : RStr :=
  trimStartMatchesEq (al.filter isAlphanumericRust)

/-- Modelled from the spec: the key the claim describes — the alias with
one leading `=` override marker stripped and otherwise unchanged. -/
def claimKey (al : RStr) : RStr :=
  match al with
  | '=' :: t => t
  | l => l

end EntityBuild

/-! ### Round-trip invariants (claim C1)

Predicates describing the shape of the data `parse` produces, used to
show that re-parsing the serializer's output recovers the log. -/

/-- A well-formed token: non-empty and free of whitespace. -/
def goodTok (t : RStr) : Prop := t ≠ [] ∧ ∀ c ∈ t, isRustWs c = false

/-- The header keys whose printed `"{}: {}"` line would be taken for a
marker, contact or ignored line when parsed back. -/
def markerKeys : List RStr :=
  (["QSO", "X-QSO", "START-OF-LOG", "END-OF-LOG"]).map String.data

/-- The extra token the transmitter flag contributes to a printed
contact line. -/
def txChunk : Option RStr → List RStr
  | some t => [t]
  | none => []

/-- A header pair as `parse` stores it: both components trimmed and free
of line feeds, the key free of colons and not starting with `#`. -/
def goodHeader (p : RStr × RStr) : Prop :=
  trimStart p.1 = p.1 ∧ trimEnd p.1 = p.1 ∧ ':' ∉ p.1 ∧ '\n' ∉ p.1
    ∧ p.1.head? ≠ some '#'
    ∧ trimStart p.2 = p.2 ∧ trimEnd p.2 = p.2 ∧ '\n' ∉ p.2

/-- A contact as `parse_qso_line` produces it: whitespace-free non-empty
tokens in the token fields, valid date and time, a plausible received
callsign, exchange fields that are space-joined token lists (the sent ones
all failing the callsign test), and the transmitter/exchange shape the
trailing-token scan guarantees. -/
def goodQso (q : QSO) : Prop :=
  goodTok q.freq ∧ goodTok q.mode
    ∧ validDate q.date = true ∧ validTime q.time = true
    ∧ goodTok q.sent_call ∧ goodTok q.rcvd_call
    ∧ is_valid_callsign q.rcvd_call = true
    ∧ ∃ sts rts : List RStr,
        (∀ t ∈ sts, goodTok t ∧ is_valid_callsign t = false)
        ∧ (∀ t ∈ rts, goodTok t)
        ∧ q.sent_rst_exch = joinSpace sts
        ∧ q.rcvd_rst_exch = joinSpace rts
        ∧ (match q.tx with
           | some t => (t = sZero ∨ t = sOne) ∧ 2 ≤ sts.length + rts.length
           | none => (∃ lt, rts.getLast? = some lt ∧ ¬(lt = sZero ∨ lt = sOne))
               ∧ 3 ≤ sts.length + rts.length)

/-- The parser loop invariant: headers well formed and strictly sorted by
key, contacts well formed. -/
def goodState (st : ParseState) : Prop :=
  (∀ p ∈ st.headers, goodHeader p)
    ∧ st.headers.Pairwise (fun p q => strLt p.1 q.1 = true)
    ∧ ∀ q ∈ st.qsos, goodQso q

/-! ### Claim-side validator predicates (claims C7 and C9)

Spec-side definitions written from the claims' wording, to be compared
with the code's `validate`. -/

/-- Claim wording: the callsign is non-empty and passes the
plausible-callsign shape test (all ASCII, at least one digit, at least one
letter, length over two). -/
def claimCallsignOk (c : RStr) : Bool :=
  !c.isEmpty && c.all (fun ch => ch.toNat < 128) && c.any Char.isDigit
    && c.any Char.isAlpha && decide (2 < c.length)

/-- Claim wording: the frequency/band token is in the fixed band whitelist
or parses as a floating-point number. -/
def claimBandOk (b : RStr) : Bool := valid_bands.contains b || parsesAsF64 b

/-- Claim wording: the mode token is one of CW, PH, FM, RY, DG. -/
def claimModeOk (m : RStr) : Bool := valid_modes.contains m

/-- Claim wording: the transmitter flag, if present, is exactly 0 or 1. -/
def claimTxOk : Option RStr → Bool
  | none => true
  | some v => v = sZero || v = sOne

/-- Claim wording: a contact passing every check. -/
def claimQsoOk (q : QSO) : Bool :=
  claimCallsignOk q.sent_call && claimCallsignOk q.rcvd_call
    && claimBandOk q.freq && claimModeOk q.mode && claimTxOk q.tx

/-- Claim wording: the first failing check of one contact, in the claim's
order (sent callsign, received callsign, band, mode, transmitter flag). -/
def claimQsoError (q : QSO) : Option CabrilloError :=
  if ¬claimCallsignOk q.sent_call then some (.InvalidCallsign q.sent_call)
  else if ¬claimCallsignOk q.rcvd_call then some (.InvalidCallsign q.rcvd_call)
  else if ¬claimBandOk q.freq then some (.InvalidFormat (msgBand ++ q.freq))
  else if ¬claimModeOk q.mode then some (.InvalidFormat (msgMode ++ q.mode))
  else
    match q.tx with
    | some v => if ¬(v = sZero ∨ v = sOne) then some (.InvalidFormat (msgTx ++ v)) else none
    | none => none

/-- The claim-side test "the validator result is a transmitter-flag
error": an `InvalidFormat` whose message begins with the transmitter
error text. -/
def isTxFlagError : Except CabrilloError Unit → Bool
  | .error (.InvalidFormat m) => msgTx.isPrefixOf m
  | _ => false

/-! ## Claim theorems -/

/-- C4: parsing the concrete line
`QSO: 14042 CW 2023-10-01 0101 N5KO 1211 B 74 SCV VE3/KA5WSS 1071 A 74 ON 0`
yields exactly one contact with sent callsign `N5KO`, sent exchange
`1211 B 74 SCV`, received callsign `VE3/KA5WSS` (the first token at index
at least 6 that passes the plausible-callsign shape test), received
exchange `1071 A 74 ON` and transmitter flag `Some("0")` because the last
token is literally `0`. -/
theorem c4_concrete_tokenization :
    parse (("QSO: 14042 CW 2023-10-01 0101 N5KO 1211 B 74 SCV VE3/KA5WSS 1071 A 74 ON 0\n").data)
      = Except.ok
          ⟨[],
           [⟨("14042").data, ("CW").data, ⟨2023, 10, 1⟩, ⟨1, 1⟩, ("N5KO").data,
             ("1211 B 74 SCV").data, ("VE3/KA5WSS").data, ("1071 A 74 ON").data,
             some (("0").data)⟩]⟩ := by
  rfl

/-- C6 counterexample: for the alias prefix `VE3(4)` the key `build.rs`
inserts is `VE34` — the parenthesized zone override is removed as well —
and not the claim's "alias with only a leading `=` stripped". -/
theorem c6_counterexample :
    EntityBuild.insertedKey (("VE3(4)").data) = ("VE34").data
      ∧ EntityBuild.claimKey (("VE3(4)").data) = ("VE3(4)").data
      ∧ EntityBuild.insertedKey (("VE3(4)").data)
          ≠ EntityBuild.claimKey (("VE3(4)").data) := by
  decide

/-- C6 (amended): the key inserted into the prefix index for an alias is
the alias with every non-alphanumeric character removed — which in
particular strips any leading `=` override marker, but also removes
parenthesized or bracketed zone overrides and any other punctuation. -/
theorem c6_alias_key_is_alphanumeric_filter (al : RStr) :
    EntityBuild.insertedKey al = al.filter EntityBuild.isAlphanumericRust := by
  unfold EntityBuild.insertedKey EntityBuild.trimStartMatchesEq
  cases h : al.filter EntityBuild.isAlphanumericRust with
  | nil => rfl
  | cons c t =>
    have hc : EntityBuild.isAlphanumericRust c = true := by
      have : c ∈ al.filter EntityBuild.isAlphanumericRust := by
        rw [h]; exact List.mem_cons_self c t
      exact (List.mem_filter.mp this).2
    have hne : ¬(c = '=') := by
      intro he
      rw [he] at hc
      exact absurd hc (by decide)
    simp [List.dropWhile_cons, hne]

/-! ### The parser once the body is reached (claim C8) -/

theorem processLine_body_skip (st : ParseState) (l : RStr) (h : st.inHeader = false)
    (hq : sQSO.isPrefixOf (trim l) = false) : processLine st l = Except.ok st := by
  unfold processLine
  by_cases hA : trim l = [] ∨ (trim l).head? = some '#'
  · simp only [if_pos hA]
  · rw [if_neg hA]
    by_cases hB : sSTART.isPrefixOf (trim l) = true ∨ sEND.isPrefixOf (trim l) = true
    · rw [if_pos hB]
    · rw [if_neg hB, h]
      simp only [Bool.false_eq_true, if_false, hq]

theorem processLine_ok_body (st st' : ParseState) (l : RStr) (h : st.inHeader = false)
    (hok : processLine st l = Except.ok st') :
    st'.headers = st.headers ∧ st'.inHeader = false := by
  unfold processLine at hok
  by_cases hA : trim l = [] ∨ (trim l).head? = some '#'
  · rw [if_pos hA] at hok
    cases hok
    exact ⟨rfl, h⟩
  · rw [if_neg hA] at hok
    by_cases hB : sSTART.isPrefixOf (trim l) = true ∨ sEND.isPrefixOf (trim l) = true
    · rw [if_pos hB] at hok
      cases hok
      exact ⟨rfl, h⟩
    · rw [if_neg hB, h] at hok
      simp only [Bool.false_eq_true, if_false] at hok
      by_cases hq : sQSO.isPrefixOf (trim l) = true
      · rw [if_pos hq] at hok
        cases hpq : parse_qso_line (trim l) with
        | error e => rw [hpq] at hok; exact Except.noConfusion hok
        | ok q =>
          rw [hpq] at hok
          cases hok
          exact ⟨rfl, rfl⟩
      · rw [if_neg hq] at hok
        cases hok
        exact ⟨rfl, h⟩

theorem processLines_ok_body (ls : List RStr) :
    ∀ st st', st.inHeader = false → processLines st ls = Except.ok st' →
      st'.headers = st.headers ∧ st'.inHeader = false := by
  induction ls with
  | nil =>
    intro st st' h hf
    cases hf
    exact ⟨rfl, h⟩
  | cons a t ih =>
    intro st st' h hf
    unfold processLines at hf
    cases hpa : processLine st a with
    | error e => rw [hpa] at hf; exact Except.noConfusion hf
    | ok st1 =>
      rw [hpa] at hf
      have h1 := processLine_ok_body st st1 a h hpa
      have h2 := ih st1 st' h1.2 hf
      exact ⟨h2.1.trans h1.1, h2.2⟩

/-- C8: once the parser has left the header (the `in_header` flag is
false), a line that does not begin (after trimming) with `QSO:` leaves the
whole state unchanged — in particular blank, comment, marker, `X-QSO:` and
would-be header lines are silently dropped — and no later line, `QSO:`
lines included, ever modifies the header mapping or returns the parser to
header mode. -/
theorem c8_strict_header_body_separation (st : ParseState) (l : RStr)
    (h : st.inHeader = false) :
    (sQSO.isPrefixOf (trim l) = false → processLine st l = Except.ok st)
      ∧ (∀ st', processLine st l = Except.ok st' →
          st'.headers = st.headers ∧ st'.inHeader = false)
      ∧ (∀ ls st', processLines st ls = Except.ok st' →
          st'.headers = st.headers ∧ st'.inHeader = false) :=
  ⟨fun hq => processLine_body_skip st l h hq,
   fun st' hok => processLine_ok_body st st' l h hok,
   fun ls st' hf => processLines_ok_body ls st st' h hf⟩

/-- C8 witness: in the body, the would-be header line `CALLSIGN: N1MM` is
dropped without any state change. -/
theorem c8_witness :
    processLine ⟨[], [], false⟩ (("CALLSIGN: N1MM").data) = Except.ok ⟨[], [], false⟩ :=
  (c8_strict_header_body_separation ⟨[], [], false⟩ (("CALLSIGN: N1MM").data) rfl).1
    (by decide)

/-! ### Validator acceptance (claim C7)

Spec-side definitions written from the claim's wording, to be compared
with the code's `validate`. -/

theorem callsign_cond_iff (c : RStr) :
    (c = [] ∨ ¬is_valid_callsign c = true) ↔ ¬claimCallsignOk c = true := by
  unfold claimCallsignOk is_valid_callsign
  rcases c with _ | ⟨a, t⟩
  · simp
  · simp only [List.isEmpty_cons, Bool.not_false, Bool.true_and, Bool.and_eq_true,
      List.cons_ne_nil, false_or]

theorem validate_qso_spec (q : QSO) :
    validate_qso q =
      (match claimQsoError q with
        | some e => Except.error e
        | none => Except.ok ()) := by
  unfold validate_qso claimQsoError
  by_cases h1 : claimCallsignOk q.sent_call = true
  case neg => rw [if_pos ((callsign_cond_iff _).mpr h1), if_pos h1]
  case pos =>
  rw [if_neg (fun hA => (callsign_cond_iff _).mp hA h1), if_neg (not_not_intro h1)]
  by_cases h2 : claimCallsignOk q.rcvd_call = true
  case neg => rw [if_pos ((callsign_cond_iff _).mpr h2), if_pos h2]
  case pos =>
  rw [if_neg (fun hA => (callsign_cond_iff _).mp hA h2), if_neg (not_not_intro h2)]
  by_cases h3 : claimBandOk q.freq = true
  case neg =>
    have h3' : ¬is_valid_band q.freq = true := h3
    rw [if_pos h3', if_pos h3]
  case pos =>
  have h3' : is_valid_band q.freq = true := h3
  rw [if_neg (not_not_intro h3'), if_neg (not_not_intro h3)]
  by_cases h4 : claimModeOk q.mode = true
  case neg =>
    have h4' : ¬is_valid_mode q.mode = true := h4
    rw [if_pos h4', if_pos h4]
  case pos =>
  have h4' : is_valid_mode q.mode = true := h4
  rw [if_neg (not_not_intro h4'), if_neg (not_not_intro h4)]
  cases htx : q.tx with
  | none => rfl
  | some v =>
    by_cases h5 : v = sZero ∨ v = sOne
    · have hL : ¬(v ≠ sZero ∧ v ≠ sOne) := fun hc => h5.elim hc.1 hc.2
      simp only [if_neg hL, if_neg (not_not_intro h5)]
    · have hL : v ≠ sZero ∧ v ≠ sOne :=
        ⟨fun h => h5 (Or.inl h), fun h => h5 (Or.inr h)⟩
      simp only [if_pos hL, if_pos h5]

theorem claimQsoError_eq_none_iff (q : QSO) :
    claimQsoError q = none ↔ claimQsoOk q = true := by
  unfold claimQsoError claimQsoOk
  by_cases h1 : claimCallsignOk q.sent_call = true
  · by_cases h2 : claimCallsignOk q.rcvd_call = true
    · by_cases h3 : claimBandOk q.freq = true
      · by_cases h4 : claimModeOk q.mode = true
        · cases htx : q.tx with
          | none => simp [h1, h2, h3, h4, claimTxOk]
          | some v =>
            by_cases h5 : v = sZero ∨ v = sOne
            · have : claimTxOk (some v) = true := by
                rcases h5 with h5 | h5 <;> simp [claimTxOk, h5]
              simp [h1, h2, h3, h4, h5, this]
            · have : claimTxOk (some v) = false := by
                push_neg at h5
                simp [claimTxOk, h5.1, h5.2]
              simp [h1, h2, h3, h4, h5, this]
        · simp [h1, h2, h3, h4]
      · simp [h1, h2, h3]
    · simp [h1, h2]
  · simp [h1]

theorem validateList_spec (l : List QSO) :
    validateList l =
      (match l.findSome? claimQsoError with
        | some e => Except.error e
        | none => Except.ok ()) := by
  induction l with
  | nil => rfl
  | cons q t ih =>
    rw [validateList, validate_qso_spec q, List.findSome?_cons]
    cases h : claimQsoError q with
    | some e => simp
    | none => simpa using ih

/-- C7: the validator accepts a log exactly when every contact passes all
of the claim's checks (plausible callsign shapes for both callsigns, band
whitelist membership or float parse for the frequency token, mode
whitelist membership, transmitter flag absent or exactly 0/1); when it
rejects, the error returned is the error of the first failing check of
the first failing contact in stored order. -/
theorem c7_validator_acceptance (log : CabrilloLog) :
    (validate log = Except.ok () ↔ ∀ q ∈ log.qsos, claimQsoOk q = true)
      ∧ ∀ e, (validate log = Except.error e
          ↔ log.qsos.findSome? claimQsoError = some e) := by
  unfold validate
  rw [validateList_spec]
  constructor
  · constructor
    · intro hok q hq
      cases h : log.qsos.findSome? claimQsoError with
      | some e =>
        rw [h] at hok
        exact Except.noConfusion hok
      | none =>
        exact (claimQsoError_eq_none_iff q).mp (List.findSome?_eq_none_iff.mp h q hq)
    · intro hall
      have hn := List.findSome?_eq_none_iff.mpr
        (fun q hq => (claimQsoError_eq_none_iff q).mpr (hall q hq))
      rw [hn]
  · intro e
    constructor
    · intro hx
      cases h : log.qsos.findSome? claimQsoError with
      | some e' =>
        rw [h] at hx
        exact congrArg some (Except.error.inj hx)
      | none =>
        rw [h] at hx
        exact Except.noConfusion hx
    · intro hx
      rw [hx]

/-! ### Characterizing successful contact-line parses -/

theorem parse_qso_line_ok (l : RStr) (q : QSO) (h : parse_qso_line l = Except.ok q) :
    ∃ p3 p4 rest rc tail,
      splitWs l = sQSO :: q.freq :: q.mode :: p3 :: p4 :: q.sent_call :: rest
        ∧ 4 ≤ rest.length
        ∧ parseDateStr p3 = some q.date
        ∧ parseTimeStr p4 = some q.time
        ∧ rest.takeWhile (fun t => !is_valid_callsign t) ++ rc :: tail = rest
        ∧ rest.dropWhile (fun t => !is_valid_callsign t) = rc :: tail
        ∧ q.sent_rst_exch = joinSpace (rest.takeWhile (fun t => !is_valid_callsign t))
        ∧ q.rcvd_call = rc
        ∧ ((∃ lt, tail.getLast? = some lt ∧ (lt = sZero ∨ lt = sOne) ∧ q.tx = some lt
              ∧ q.rcvd_rst_exch = joinSpace tail.dropLast)
            ∨ (∃ lt, tail.getLast? = some lt ∧ ¬(lt = sZero ∨ lt = sOne) ∧ q.tx = none
              ∧ q.rcvd_rst_exch = joinSpace tail)) := by
  unfold parse_qso_line at h
  rcases hsp : splitWs l with _ | ⟨p0, _ | ⟨p1, _ | ⟨p2, _ | ⟨p3, _ | ⟨p4, _ | ⟨p5, rest⟩⟩⟩⟩⟩⟩ <;>
    rw [hsp] at h
  case nil => exact Except.noConfusion h
  case cons.nil => exact Except.noConfusion h
  case cons.cons.nil => exact Except.noConfusion h
  case cons.cons.cons.nil => exact Except.noConfusion h
  case cons.cons.cons.cons.nil => exact Except.noConfusion h
  case cons.cons.cons.cons.cons.nil => exact Except.noConfusion h
  dsimp only at h
  by_cases hc : 4 ≤ rest.length ∧ p0 = sQSO
  case neg => rw [if_neg hc] at h; exact Except.noConfusion h
  rw [if_pos hc] at h
  cases hd : parseDateStr p3 with
  | none => rw [hd] at h; exact Except.noConfusion h
  | some date =>
  rw [hd] at h
  dsimp only at h
  cases ht : parseTimeStr p4 with
  | none => rw [ht] at h; exact Except.noConfusion h
  | some time =>
  rw [ht] at h
  dsimp only at h
  cases hdr : rest.dropWhile (fun t => !is_valid_callsign t) with
  | nil => rw [hdr] at h; exact Except.noConfusion h
  | cons rc tail =>
  rw [hdr] at h
  dsimp only at h
  cases hlast : tail.getLast? with
  | none => rw [hlast] at h; exact Except.noConfusion h
  | some lt =>
  rw [hlast] at h
  dsimp only at h
  by_cases h01 : lt = sZero ∨ lt = sOne
  · rw [if_pos h01] at h
    cases h
    refine ⟨p3, p4, rest, rc, tail, ?_, hc.1, hd, ht,
      ?_, hdr, rfl, rfl, Or.inl ⟨lt, hlast, h01, rfl, rfl⟩⟩
    · rw [hc.2]
    · rw [← hdr, List.takeWhile_append_dropWhile]
  · rw [if_neg h01] at h
    cases h
    refine ⟨p3, p4, rest, rc, tail, ?_, hc.1, hd, ht,
      ?_, hdr, rfl, rfl, Or.inr ⟨lt, hlast, h01, rfl, rfl⟩⟩
    · rw [hc.2]
    · rw [← hdr, List.takeWhile_append_dropWhile]

/-! ### The transmitter flag of parsed contacts (claim C9) -/

theorem parse_qso_line_tx (l : RStr) (q : QSO) (h : parse_qso_line l = Except.ok q) :
    q.tx = none ∨ q.tx = some sZero ∨ q.tx = some sOne := by
  obtain ⟨_, _, _, _, _, _, _, _, _, _, _, _, _, htx⟩ := parse_qso_line_ok l q h
  rcases htx with ⟨lt, _, h01, htx, _⟩ | ⟨lt, _, _, htx, _⟩
  · rcases h01 with h0 | h1
    · exact Or.inr (Or.inl (htx.trans (congrArg some h0)))
    · exact Or.inr (Or.inr (htx.trans (congrArg some h1)))
  · exact Or.inl htx

theorem processLine_ok_qsos (st st' : ParseState) (l : RStr)
    (hok : processLine st l = Except.ok st') :
    st'.qsos = st.qsos
      ∨ ∃ q, parse_qso_line (trim l) = Except.ok q ∧ st'.qsos = st.qsos ++ [q] := by
  unfold processLine at hok
  by_cases hA : trim l = [] ∨ (trim l).head? = some '#'
  · rw [if_pos hA] at hok
    cases hok
    exact Or.inl rfl
  · rw [if_neg hA] at hok
    by_cases hB : sSTART.isPrefixOf (trim l) = true ∨ sEND.isPrefixOf (trim l) = true
    · rw [if_pos hB] at hok
      cases hok
      exact Or.inl rfl
    · rw [if_neg hB] at hok
      by_cases hH : st.inHeader = true
      · rw [if_pos hH] at hok
        by_cases hq : sQSO.isPrefixOf (trim l) = true
        · rw [if_pos hq] at hok
          cases hpq : parse_qso_line (trim l) with
          | error e => rw [hpq] at hok; exact Except.noConfusion hok
          | ok q =>
            rw [hpq] at hok
            cases hok
            exact Or.inr ⟨q, rfl, rfl⟩
        · rw [if_neg hq] at hok
          by_cases hx : sXQSO.isPrefixOf (trim l) = true
          · rw [if_pos hx] at hok
            cases hok
            exact Or.inl rfl
          · rw [if_neg hx] at hok
            cases hsc : splitOnceColon (trim l) with
            | none => rw [hsc] at hok; cases hok; exact Or.inl rfl
            | some kv =>
              rw [hsc] at hok
              cases hok
              exact Or.inl rfl
      · rw [if_neg hH] at hok
        by_cases hq : sQSO.isPrefixOf (trim l) = true
        · rw [if_pos hq] at hok
          cases hpq : parse_qso_line (trim l) with
          | error e => rw [hpq] at hok; exact Except.noConfusion hok
          | ok q =>
            rw [hpq] at hok
            cases hok
            exact Or.inr ⟨q, rfl, rfl⟩
        · rw [if_neg hq] at hok
          cases hok
          exact Or.inl rfl

theorem processLines_qso_prop (P : QSO → Prop)
    (hstep : ∀ l q, parse_qso_line l = Except.ok q → P q) (ls : List RStr) :
    ∀ st st', processLines st ls = Except.ok st' →
      (∀ q ∈ st.qsos, P q) → ∀ q ∈ st'.qsos, P q := by
  induction ls with
  | nil =>
    intro st st' hf hinv
    cases hf
    exact hinv
  | cons a t ih =>
    intro st st' hf hinv
    unfold processLines at hf
    cases hpa : processLine st a with
    | error e => rw [hpa] at hf; exact Except.noConfusion hf
    | ok st1 =>
      rw [hpa] at hf
      refine ih st1 st' hf ?_
      rcases processLine_ok_qsos st st1 a hpa with hs | ⟨q, hpq, hs⟩
      · rw [hs]; exact hinv
      · rw [hs]
        intro q' hq'
        rcases List.mem_append.mp hq' with hmem | hmem
        · exact hinv q' hmem
        · rw [List.mem_singleton.mp hmem]
          exact hstep (trim a) q hpq

theorem parse_ok_elim (content : RStr) (log : CabrilloLog)
    (h : parse content = Except.ok log) :
    ∃ st, processLines ⟨[], [], true⟩ (linesOf content) = Except.ok st
      ∧ log.headers = st.headers ∧ log.qsos = st.qsos := by
  unfold parse at h
  cases hf : processLines ⟨[], [], true⟩ (linesOf content) with
  | error e => rw [hf] at h; exact Except.noConfusion h
  | ok st =>
    rw [hf] at h
    cases h
    exact ⟨st, rfl, rfl, rfl⟩

theorem msgTx_not_prefix_append (a x : RStr) (hlen : a.length ≤ msgTx.length)
    (hne : msgTx.take a.length ≠ a) : msgTx.isPrefixOf (a ++ x) = false := by
  by_contra hcon
  rw [Bool.not_eq_false, List.isPrefixOf_iff_prefix] at hcon
  obtain ⟨r, hr⟩ := hcon
  have htake := congrArg (List.take a.length) hr
  rw [List.take_left, List.take_append_eq_append_take,
    Nat.sub_eq_zero_of_le hlen, List.take_zero, List.append_nil] at htake
  exact hne htake

theorem isTxFlagError_validate_qso (q : QSO)
    (htx : q.tx = none ∨ q.tx = some sZero ∨ q.tx = some sOne) :
    isTxFlagError (validate_qso q) = false := by
  unfold validate_qso
  by_cases h1 : q.sent_call = [] ∨ ¬is_valid_callsign q.sent_call = true
  · rw [if_pos h1]; rfl
  · rw [if_neg h1]
    by_cases h2 : q.rcvd_call = [] ∨ ¬is_valid_callsign q.rcvd_call = true
    · rw [if_pos h2]; rfl
    · rw [if_neg h2]
      by_cases h3 : ¬is_valid_band q.freq = true
      · rw [if_pos h3]
        show msgTx.isPrefixOf (msgBand ++ q.freq) = false
        exact msgTx_not_prefix_append msgBand q.freq (by decide) (by decide)
      · rw [if_neg h3]
        by_cases h4 : ¬is_valid_mode q.mode = true
        · rw [if_pos h4]
          show msgTx.isPrefixOf (msgMode ++ q.mode) = false
          exact msgTx_not_prefix_append msgMode q.mode (by decide) (by decide)
        · rw [if_neg h4]
          rcases htx with hn | h0 | h1'
          · rw [hn]; rfl
          · rw [h0]; decide
          · rw [h1']; decide

/-- C9: every contact of a successfully parsed log has transmitter flag
absent, `Some "0")` or `Some "1"`; consequently the validator's
transmitter-flag check can never be the failing check on a parse-produced
log. -/
theorem c9_parsed_tx_flag (content : RStr) (log : CabrilloLog)
    (h : parse content = Except.ok log) :
    ∀ q ∈ log.qsos,
      (q.tx = none ∨ q.tx = some sZero ∨ q.tx = some sOne)
        ∧ isTxFlagError (validate_qso q) = false := by
  obtain ⟨st, hf, _, hq⟩ := parse_ok_elim content log h
  intro q hmem
  rw [hq] at hmem
  have htx := processLines_qso_prop
    (fun q => q.tx = none ∨ q.tx = some sZero ∨ q.tx = some sOne)
    (fun l q hl => parse_qso_line_tx l q hl) (linesOf content)
    ⟨[], [], true⟩ st hf (by intro q' hq'; exact absurd hq' (List.not_mem_nil q'))
    q hmem
  exact ⟨htx, isTxFlagError_validate_qso q htx⟩

/-- C9 witness: the transmitter-flag invariant at a concrete parsed log. -/
theorem c9_witness :
    (((some (("0").data) : Option RStr) = none
        ∨ (some (("0").data) : Option RStr) = some sZero
        ∨ (some (("0").data) : Option RStr) = some sOne)
      ∧ isTxFlagError (validate_qso
          ⟨("14000").data, ("CW").data, ⟨2023, 10, 1⟩, ⟨12, 0⟩, ("N1MM").data,
           ("599 001").data, ("W1AW").data, ("599 001").data,
           some (("0").data)⟩) = false) := by
  have := c9_parsed_tx_flag
    (("QSO: 14000 CW 2023-10-01 1200 N1MM 599 001 W1AW 599 001 0\n").data)
    ⟨[], [⟨("14000").data, ("CW").data, ⟨2023, 10, 1⟩, ⟨12, 0⟩, ("N1MM").data,
      ("599 001").data, ("W1AW").data, ("599 001").data, some (("0").data)⟩]⟩
    (by rfl)
    ⟨("14000").data, ("CW").data, ⟨2023, 10, 1⟩, ⟨12, 0⟩, ("N1MM").data,
      ("599 001").data, ("W1AW").data, ("599 001").data, some (("0").data)⟩
    (by simp)
  exact this

/-! ### All-or-nothing parsing (claim C5) -/

theorem isPrefixOf_head (p s : RStr) (hp : p.isPrefixOf s = true) (hne : p ≠ []) :
    s.head? = p.head? := by
  rw [List.isPrefixOf_iff_prefix] at hp
  obtain ⟨r, hr⟩ := hp
  cases p with
  | nil => exact absurd rfl hne
  | cons c t => rw [← hr]; rfl

theorem processLine_qso_error (st : ParseState) (l : RStr) (e : CabrilloError)
    (hq : sQSO.isPrefixOf (trim l) = true)
    (herr : parse_qso_line (trim l) = Except.error e) :
    processLine st l = Except.error e := by
  have hhead : (trim l).head? = some 'Q' := isPrefixOf_head sQSO (trim l) hq (by decide)
  have hA : ¬(trim l = [] ∨ (trim l).head? = some '#') := by
    rintro (hnil | hhash)
    · rw [hnil] at hhead; exact Option.noConfusion hhead
    · rw [hhash] at hhead
      exact absurd (Option.some.inj hhead) (by decide)
  have hB : ¬(sSTART.isPrefixOf (trim l) = true ∨ sEND.isPrefixOf (trim l) = true) := by
    rintro (hs | hs)
    · have := isPrefixOf_head sSTART (trim l) hs (by decide)
      rw [hhead] at this
      exact absurd (Option.some.inj this) (by decide)
    · have := isPrefixOf_head sEND (trim l) hs (by decide)
      rw [hhead] at this
      exact absurd (Option.some.inj this) (by decide)
  unfold processLine
  rw [if_neg hA, if_neg hB]
  by_cases hH : st.inHeader = true
  · rw [if_pos hH, if_pos hq, herr]
  · rw [if_neg hH, if_pos hq, herr]

theorem processLines_error (ls : List RStr) (l : RStr) (hmem : l ∈ ls)
    (herr : ∀ st : ParseState, ∃ e, processLine st l = Except.error e) :
    ∀ st : ParseState, ∃ e, processLines st ls = Except.error e := by
  induction ls with
  | nil => exact absurd hmem (List.not_mem_nil l)
  | cons a t ih =>
    intro st
    rcases List.mem_cons.mp hmem with heq | hmem'
    · obtain ⟨e, he⟩ := herr st
      rw [heq] at he
      exact ⟨e, by unfold processLines; rw [he]⟩
    · cases hpa : processLine st a with
      | error e => exact ⟨e, by unfold processLines; rw [hpa]⟩
      | ok st1 =>
        obtain ⟨e, he⟩ := ih hmem' st1
        exact ⟨e, by unfold processLines; rw [hpa]; exact he⟩

/-- C5: parsing is all-or-nothing — if any line of the input is a `QSO:`
line (after trimming) that `parse_qso_line` rejects (too few tokens, bad
date, bad time, no plausible received callsign, or nothing after the
received callsign), then `parse` returns an error and no log value at
all, partial or otherwise. -/
theorem c5_all_or_nothing (content : RStr)
    (h : ∃ l ∈ linesOf content, sQSO.isPrefixOf (trim l) = true
      ∧ ∃ e, parse_qso_line (trim l) = Except.error e) :
    ∃ e, parse content = Except.error e := by
  obtain ⟨l, hmem, hq, e0, he0⟩ := h
  obtain ⟨e, he⟩ := processLines_error (linesOf content) l hmem
    (fun st => ⟨e0, processLine_qso_error st l e0 hq he0⟩) ⟨[], [], true⟩
  exact ⟨e, by unfold parse; rw [he]⟩

/-- C5 witness: a log whose only `QSO:` line has too few tokens fails to
parse as a whole. -/
theorem c5_witness :
    ∃ e, parse (("CALLSIGN: N1MM\nQSO: bad\n").data) = Except.error e :=
  c5_all_or_nothing (("CALLSIGN: N1MM\nQSO: bad\n").data)
    ⟨("QSO: bad").data, by decide, by decide,
     ⟨CabrilloError.InvalidFormat msgInvalidQso, by rfl⟩⟩

/-! ### The entity resolver on ASCII callsigns (claims C2, C3, C10) -/

namespace Enricher

variable {α : Type}

theorem utf8Size_ascii (c : Char) (h : c.toNat < 128) : c.utf8Size = 1 := by
  unfold Char.utf8Size
  rw [if_pos]
  exact UInt32.le_def.mpr (by simpa using Nat.le_of_lt_succ h)

theorem byteLen_ascii (s : RStr) (h : ∀ c ∈ s, c.toNat < 128) :
    byteLen s = s.length := by
  induction s with
  | nil => rfl
  | cons c t ih =>
    unfold byteLen
    simp only [List.map_cons, List.sum_cons, List.length_cons]
    rw [utf8Size_ascii c (h c (List.mem_cons_self c t))]
    have := ih (fun x hx => h x (List.mem_cons_of_mem c hx))
    unfold byteLen at this
    omega

theorem prefix_chars_ascii (c s : RStr) (h : s <+: c) (hc : ∀ ch ∈ c, ch.toNat < 128) :
    ∀ ch ∈ s, ch.toNat < 128 :=
  fun ch hch => hc ch (h.subset hch)

theorem byteLen_take_ascii (s : RStr) (hA : ∀ c ∈ s, c.toNat < 128) (k : Nat) :
    byteLen (s.take k) = min k s.length := by
  rw [byteLen_ascii (s.take k) (prefix_chars_ascii s (s.take k) (List.take_prefix k s) hA)]
  simp [List.length_take]

theorem find?_range_first (p : Nat → Bool) (i : Nat) :
    ∀ m, i < m → p i = true → (∀ k, k < i → p k = false) →
      (List.range m).find? p = some i := by
  intro m
  induction m with
  | zero => omega
  | succ n ih =>
    intro him hp hbelow
    rw [List.range_succ, List.find?_append]
    by_cases hin : i < n
    · rw [ih hin hp hbelow]
      rfl
    · have hi : i = n := by omega
      have hnone : (List.range n).find? p = none := by
        rw [List.find?_eq_none]
        intro x hx
        rw [List.mem_range] at hx
        simp [hbelow x (by omega)]
      rw [hnone, ← hi]
      simp [List.find?, hp]

theorem sliceTo_ascii (s : RStr) (hA : ∀ c ∈ s, c.toNat < 128) (i : Nat)
    (hi : i ≤ s.length) : sliceTo s i = some (s.take i) := by
  unfold sliceTo
  rw [find?_range_first _ i (s.length + 1) (by omega) ?_ ?_]
  · rfl
  · rw [decide_eq_true_eq, byteLen_take_ascii s hA i]
    omega
  · intro k hk
    rw [decide_eq_false_iff_not, byteLen_take_ascii s hA k]
    omega

theorem get_all_prefixes_descending_ascii (s : RStr) (hA : ∀ c ∈ s, c.toNat < 128) :
    get_all_prefixes_descending s
      = Except.ok (((List.range' 1 s.length).reverse).map (fun i => s.take i)) := by
  unfold get_all_prefixes_descending
  rw [byteLen_ascii s hA]
  have aux : ∀ l : List Nat, (∀ i ∈ l, i ≤ s.length) →
      (l.mapM (fun i => match sliceTo s i with
        | none => Except.error RustPanic.sliceCharBoundary
        | some p => Except.ok p)
        : Except RustPanic (List RStr)) = Except.ok (l.map (fun i => s.take i)) := by
    intro l hl
    induction l with
    | nil => rfl
    | cons a t ih =>
      rw [List.mapM_cons, sliceTo_ascii s hA a (hl a (List.mem_cons_self a t)),
        ih (fun i hi => hl i (List.mem_cons_of_mem a hi))]
      rfl
  exact aux _ (fun i hi => by
    rw [List.mem_reverse, List.mem_range'_1] at hi
    omega)

theorem enrich_callsign_ascii (idx : List (RStr × α)) (s : RStr)
    (hA : ∀ c ∈ s, c.toNat < 128) :
    enrich_callsign idx s
      = Except.ok (((List.range' 1 s.length).reverse).findSome?
          (fun i => List.lookup (s.take i) idx)) := by
  unfold enrich_callsign
  rw [get_all_prefixes_descending_ascii s hA]
  dsimp only [Except.map]
  rw [List.findSome?_map]
  rfl

theorem range'_rev_succ (n : Nat) :
    (List.range' 1 (n + 1)).reverse = (n + 1) :: (List.range' 1 n).reverse := by
  rw [List.range'_concat, List.reverse_append]
  have : 1 + 1 * n = n + 1 := by omega
  rw [this]
  rfl

theorem findSome?_desc_exists {β : Type} (f : Nat → Option β) (i : Nat) :
    ∀ n, 1 ≤ i → i ≤ n → (f i).isSome = true →
      ∃ j v, i ≤ j ∧ j ≤ n ∧ f j = some v
        ∧ ((List.range' 1 n).reverse).findSome? f = some v := by
  intro n
  induction n with
  | zero => omega
  | succ n ih =>
    intro h1 h2 hf
    cases hfn : f (n + 1) with
    | some v =>
      refine ⟨n + 1, v, by omega, Nat.le_refl _, hfn, ?_⟩
      rw [range'_rev_succ, List.findSome?_cons, hfn]
    | none =>
      have hi : i ≤ n := by
        rcases Nat.lt_or_ge i (n + 1) with hc | hc
        · omega
        · have he : i = n + 1 := by omega
          rw [he, hfn] at hf
          exact absurd hf (by simp)
      obtain ⟨j, v, hj1, hj2, hj3, hj4⟩ := ih h1 hi hf
      refine ⟨j, v, hj1, by omega, hj3, ?_⟩
      rw [range'_rev_succ, List.findSome?_cons, hfn]
      exact hj4

theorem findSome?_desc_first {β : Type} (f : Nat → Option β) (v : β) :
    ∀ n, ((List.range' 1 n).reverse).findSome? f = some v →
      ∃ j, 1 ≤ j ∧ j ≤ n ∧ f j = some v ∧ ∀ j', j < j' → j' ≤ n → f j' = none := by
  intro n
  induction n with
  | zero =>
    intro h
    exact absurd h (by simp [List.range'])
  | succ n ih =>
    intro h
    rw [range'_rev_succ, List.findSome?_cons] at h
    cases hfn : f (n + 1) with
    | some w =>
      rw [hfn] at h
      have hv : w = v := Option.some.inj h
      exact ⟨n + 1, by omega, Nat.le_refl _, by rw [hfn, hv],
        fun j' hj1 hj2 => by omega⟩
    | none =>
      rw [hfn] at h
      obtain ⟨j, hj1, hj2, hj3, hj4⟩ := ih h
      refine ⟨j, hj1, by omega, hj3, fun j' hlt hle => ?_⟩
      rcases Nat.lt_or_ge j' (n + 1) with hcase | hcase
      · exact hj4 j' hlt (by omega)
      · have he : j' = n + 1 := by omega
        rw [he]
        exact hfn

theorem lookup_some_mem (a : RStr) (b : α) (l : List (RStr × α))
    (h : List.lookup a l = some b) : (a, b) ∈ l := by
  induction l with
  | nil => exact Option.noConfusion h
  | cons x t ih =>
    cases x with
    | mk k v =>
      rw [List.lookup_cons] at h
      cases hbe : a == k with
      | true =>
        rw [hbe] at h
        rw [eq_of_beq hbe, Option.some.inj h]
        exact List.mem_cons_self _ _
      | false =>
        rw [hbe] at h
        exact List.mem_cons_of_mem _ (ih h)

theorem mem_lookup_isSome (a : RStr) (b : α) (l : List (RStr × α))
    (h : (a, b) ∈ l) : (List.lookup a l).isSome = true := by
  induction l with
  | nil => exact absurd h (List.not_mem_nil _)
  | cons x t ih =>
    cases x with
    | mk k v =>
      rw [List.lookup_cons]
      cases hbe : a == k with
      | true => rfl
      | false =>
        rcases List.mem_cons.mp h with heq | hmem
        · have hak : a = k := congrArg Prod.fst heq
          rw [hak] at hbe
          exact absurd hbe (by simp)
        · exact ih hmem

theorem prefix_eq_of_byteLen_eq (c k1 k2 : RStr) (hA : ∀ ch ∈ c, ch.toNat < 128)
    (h1 : k1 <+: c) (h2 : k2 <+: c) (hb : byteLen k1 = byteLen k2) : k1 = k2 := by
  rw [byteLen_ascii k1 (prefix_chars_ascii c k1 h1 hA),
    byteLen_ascii k2 (prefix_chars_ascii c k2 h2 hA)] at hb
  rw [List.prefix_iff_eq_take.mp h1, List.prefix_iff_eq_take.mp h2, hb]

theorem enrich2_foldl_keep (c : RStr) :
    ∀ (l : List (RStr × α)) (st : Option α × Nat),
      (∀ p ∈ l, p.1.isPrefixOf c = true → byteLen p.1 ≤ st.2) →
      l.foldl (fun best p =>
        if p.1.isPrefixOf c ∧ best.2 < byteLen p.1 then (some p.2, byteLen p.1)
        else best) st = st := by
  intro l
  induction l with
  | nil => intro st _; rfl
  | cons p t ih =>
    intro st h
    rw [List.foldl_cons]
    have hstep : (if p.1.isPrefixOf c ∧ st.2 < byteLen p.1
        then (some p.2, byteLen p.1) else st) = st := by
      by_cases hc : p.1.isPrefixOf c ∧ st.2 < byteLen p.1
      · exact absurd (h p (List.mem_cons_self p t) hc.1) (Nat.not_le.mpr hc.2)
      · exact if_neg hc
    rw [hstep]
    exact ih st (fun p' hp' => h p' (List.mem_cons_of_mem p hp'))

theorem enrich2_foldl_reach (c : RStr) (hA : ∀ ch ∈ c, ch.toNat < 128)
    (k : RStr) (v : α) :
    ∀ (l : List (RStr × α)) (b : Option α) (bl : Nat),
      (l.map Prod.fst).Nodup → (k, v) ∈ l → k.isPrefixOf c = true →
      bl < byteLen k →
      (∀ p ∈ l, p.1.isPrefixOf c = true → byteLen p.1 ≤ byteLen k) →
      (l.foldl (fun best p =>
        if p.1.isPrefixOf c ∧ best.2 < byteLen p.1 then (some p.2, byteLen p.1)
        else best) (b, bl)).1 = some v := by
  intro l
  induction l with
  | nil =>
    intro b bl _ hmem _ _ _
    exact absurd hmem (List.not_mem_nil _)
  | cons p t ih =>
    intro b bl hnodup hmem hk hbl hmax
    have hnod : p.1 ∉ t.map Prod.fst ∧ (t.map Prod.fst).Nodup := by
      rw [List.map_cons, List.nodup_cons] at hnodup
      exact hnodup
    rw [List.foldl_cons]
    by_cases hpk : p.1 = k
    · rcases List.mem_cons.mp hmem with heq | hmemt
      · have hcond : p.1.isPrefixOf c ∧ bl < byteLen p.1 := by
          rw [hpk]; exact ⟨hk, hbl⟩
        rw [if_pos hcond]
        have hkeep := enrich2_foldl_keep c t (some p.2, byteLen p.1)
          (fun p' hp' hpre => by
            have := hmax p' (List.mem_cons_of_mem p hp') hpre
            rw [hpk]
            exact this)
        rw [hkeep]
        rw [← heq]
      · exfalso
        have : k ∈ t.map Prod.fst := List.mem_map_of_mem Prod.fst hmemt
        rw [← hpk] at this
        exact hnod.1 this
    · have hmemt : (k, v) ∈ t := by
        rcases List.mem_cons.mp hmem with heq | h
        · exact absurd (congrArg Prod.fst heq).symm hpk
        · exact h
      by_cases hc : p.1.isPrefixOf c ∧ bl < byteLen p.1
      · rw [if_pos hc]
        have hlt : byteLen p.1 < byteLen k := by
          have hle := hmax p (List.mem_cons_self p t) hc.1
          rcases Nat.lt_or_ge (byteLen p.1) (byteLen k) with hg | hg
          · exact hg
          · have heq : byteLen p.1 = byteLen k := by omega
            exact absurd (prefix_eq_of_byteLen_eq c p.1 k hA
              (List.isPrefixOf_iff_prefix.mp hc.1)
              (List.isPrefixOf_iff_prefix.mp hk) heq) hpk
        exact ih (some p.2) (byteLen p.1) hnod.2 hmemt hk hlt
          (fun p' hp' hpre => hmax p' (List.mem_cons_of_mem p hp') hpre)
      · rw [if_neg hc]
        exact ih b bl hnod.2 hmemt hk hbl
          (fun p' hp' hpre => hmax p' (List.mem_cons_of_mem p hp') hpre)

theorem take_ne_nil_of_one_le (s : RStr) (i : Nat) (h1 : 1 ≤ i) (h2 : i ≤ s.length) :
    s.take i ≠ [] := by
  intro hnil
  have hlen := congrArg List.length hnil
  rw [List.length_take, List.length_nil, Nat.min_eq_zero_iff] at hlen
  rcases hlen with h | h <;> omega

end Enricher

/-- C3 counterexample: on the non-ASCII callsign `ż` the resolver panics
(byte index 1 is not a character boundary), even with an empty index —
it does not return a normal `None`. -/
theorem c3_counterexample :
    Enricher.enrich_callsign ([] : List (RStr × Nat)) (("ż").data)
      = Except.error Enricher.RustPanic.sliceCharBoundary := rfl

/-- C3 (amended): on every ASCII callsign (the empty string included)
`enrich_callsign` returns normally — `Ok` of an optional entity, never a
panic — and when no prefix of the callsign of any length is an index key
it returns `None`. -/
theorem c3_no_match_is_safe {α : Type} (idx : List (RStr × α)) (s : RStr)
    (hA : ∀ c ∈ s, c.toNat < 128) :
    (∃ o, Enricher.enrich_callsign idx s = Except.ok o)
      ∧ ((∀ i ≤ s.length, 1 ≤ i → List.lookup (s.take i) idx = none) →
          Enricher.enrich_callsign idx s = Except.ok none) := by
  constructor
  · exact ⟨_, Enricher.enrich_callsign_ascii idx s hA⟩
  · intro hnone
    rw [Enricher.enrich_callsign_ascii idx s hA]
    have : ((List.range' 1 s.length).reverse).findSome?
        (fun i => List.lookup (s.take i) idx) = none := by
      rw [List.findSome?_eq_none_iff]
      intro i hi
      rw [List.mem_reverse, List.mem_range'_1] at hi
      exact hnone i (by omega) (by omega)
    rw [this]

/-- C3 witness: a callsign none of whose prefixes is indexed resolves to
`None` without error. -/
theorem c3_witness :
    Enricher.enrich_callsign [(("K").data, 1)] (("XYZ").data) = Except.ok none :=
  (c3_no_match_is_safe [(("K").data, 1)] (("XYZ").data) (by decide)).2 (by decide)

/-- C2 counterexample: with `1A` and `1` both indexed and both prefixes of
the callsign `1Aż` (with `1A` strictly longer), the resolver does not
return the entity for `1A` — it panics on the non-ASCII callsign before
any lookup. -/
theorem c2_counterexample :
    List.lookup (("1A").data) [(("1A").data, 1), (("1").data, 2)] = some 1
      ∧ List.lookup (("1").data) [(("1A").data, 1), (("1").data, 2)] = some 2
      ∧ (("1A").data).isPrefixOf (("1Aż").data) = true
      ∧ (("1").data).isPrefixOf (("1Aż").data) = true
      ∧ (("1").data).length < (("1A").data).length
      ∧ Enricher.enrich_callsign [(("1A").data, 1), (("1").data, 2)] (("1Aż").data)
          = Except.error Enricher.RustPanic.sliceCharBoundary :=
  ⟨rfl, rfl, by decide, by decide, by decide, rfl⟩

/-- C2 (amended): for every ASCII callsign `c` and indexed keys `p1`,`p2`
that are both prefixes of `c` with `p1` strictly longer, the resolver
returns the entity stored under `p1` or under some still-longer matching
key — never the entity entry of the shorter `p2`. -/
theorem c2_longest_match {α : Type} (idx : List (RStr × α)) (c p1 p2 : RStr)
    (e1 e2 : α) (hA : ∀ ch ∈ c, ch.toNat < 128)
    (h1 : List.lookup p1 idx = some e1) (h1p : p1.isPrefixOf c = true)
    (h2 : List.lookup p2 idx = some e2) (h2p : p2.isPrefixOf c = true)
    (hlen : p2.length < p1.length) :
    ∃ k ek, k.isPrefixOf c = true ∧ List.lookup k idx = some ek
      ∧ p1.length ≤ k.length
      ∧ Enricher.enrich_callsign idx c = Except.ok (some ek) := by
  have hpre1 := List.isPrefixOf_iff_prefix.mp h1p
  have htake : p1 = c.take p1.length := List.prefix_iff_eq_take.mp hpre1
  have hlen1 : p1.length ≤ c.length := hpre1.length_le
  have hfi : (List.lookup (c.take p1.length) idx).isSome = true := by
    rw [← htake, h1]
    rfl
  obtain ⟨j, v, hj1, hj2, hj3, hj4⟩ := Enricher.findSome?_desc_exists
    (fun i => List.lookup (c.take i) idx) p1.length c.length (by omega) hlen1 hfi
  refine ⟨c.take j, v, ?_, hj3, ?_, ?_⟩
  · exact List.isPrefixOf_iff_prefix.mpr (List.take_prefix j c)
  · rw [List.length_take]
    omega
  · rw [Enricher.enrich_callsign_ascii idx c hA, hj4]

/-- C2 witness: with `SP` and `S` both indexed, the ASCII callsign `SP5T`
resolves through the longer prefix. -/
theorem c2_witness :
    ∃ k ek, k.isPrefixOf (("SP5T").data) = true
      ∧ List.lookup k [(("SP").data, 1), (("S").data, 2)] = some ek
      ∧ (("SP").data).length ≤ k.length
      ∧ Enricher.enrich_callsign [(("SP").data, 1), (("S").data, 2)] (("SP5T").data)
          = Except.ok (some ek) :=
  c2_longest_match [(("SP").data, 1), (("S").data, 2)] (("SP5T").data)
    (("SP").data) (("S").data) 1 2 (by decide) rfl (by decide) rfl (by decide)
    (by decide)

/-- C10: on every ASCII callsign, over any index with distinct keys, the
two resolver implementations agree — `enrich_callsign` returns `Ok` of
exactly the optional entity `enrich_callsign2` returns. -/
theorem c10_resolvers_agree {α : Type} (idx : List (RStr × α)) (c : RStr)
    (hA : ∀ ch ∈ c, ch.toNat < 128) (hnd : (idx.map Prod.fst).Nodup) :
    Enricher.enrich_callsign idx c = Except.ok (Enricher.enrich_callsign2 idx c) := by
  rw [Enricher.enrich_callsign_ascii idx c hA]
  refine congrArg Except.ok ?_
  cases hF : ((List.range' 1 c.length).reverse).findSome?
      (fun i => List.lookup (c.take i) idx) with
  | some v =>
    obtain ⟨j, hj1, hj2, hjv, hmax'⟩ := Enricher.findSome?_desc_first
      (fun i => List.lookup (c.take i) idx) v c.length hF
    have hmem := Enricher.lookup_some_mem (c.take j) v idx hjv
    have hbltake : Enricher.byteLen (c.take j) = j := by
      rw [Enricher.byteLen_take_ascii c hA j]
      omega
    have hmax : ∀ p ∈ idx, p.1.isPrefixOf c = true →
        Enricher.byteLen p.1 ≤ Enricher.byteLen (c.take j) := by
      intro p hp hpre
      rw [hbltake]
      have hpre' := List.isPrefixOf_iff_prefix.mp hpre
      rw [Enricher.byteLen_ascii p.1 (Enricher.prefix_chars_ascii c p.1 hpre' hA)]
      by_cases hnil : p.1 = []
      · rw [hnil]; exact Nat.zero_le j
      · have hlp : 1 ≤ p.1.length := by
          cases hq : p.1 with
          | nil => exact absurd hq hnil
          | cons a t => simp [hq]
        have hlc : p.1.length ≤ c.length := hpre'.length_le
        by_contra hgt
        push_neg at hgt
        have hnone := hmax' p.1.length hgt hlc
        have htk : c.take p.1.length = p.1 := (List.prefix_iff_eq_take.mp hpre').symm
        rw [htk] at hnone
        have := Enricher.mem_lookup_isSome p.1 p.2 idx hp
        rw [hnone] at this
        exact Bool.noConfusion this
    have hreach := Enricher.enrich2_foldl_reach c hA (c.take j) v idx none 0 hnd hmem
      (List.isPrefixOf_iff_prefix.mpr (List.take_prefix j c))
      (by rw [hbltake]; omega) hmax
    unfold Enricher.enrich_callsign2
    exact hreach.symm
  | none =>
    have hnomatch : ∀ p ∈ idx, p.1.isPrefixOf c = true →
        Enricher.byteLen p.1 ≤ ((none : Option α), 0).2 := by
      intro p hp hpre
      have hpre' := List.isPrefixOf_iff_prefix.mp hpre
      rw [Enricher.byteLen_ascii p.1 (Enricher.prefix_chars_ascii c p.1 hpre' hA)]
      by_cases hnil : p.1 = []
      · rw [hnil]; exact Nat.le_refl 0
      · exfalso
        have hlp : 1 ≤ p.1.length := by
          cases hq : p.1 with
          | nil => exact absurd hq hnil
          | cons a t => simp [hq]
        have hlc : p.1.length ≤ c.length := hpre'.length_le
        have hnone := List.findSome?_eq_none_iff.mp hF p.1.length
          (by rw [List.mem_reverse, List.mem_range'_1]; omega)
        have htk : c.take p.1.length = p.1 := (List.prefix_iff_eq_take.mp hpre').symm
        rw [htk] at hnone
        have := Enricher.mem_lookup_isSome p.1 p.2 idx hp
        rw [hnone] at this
        exact Bool.noConfusion this
    have hkeep := Enricher.enrich2_foldl_keep c idx ((none : Option α), 0) hnomatch
    unfold Enricher.enrich_callsign2
    rw [hkeep]

/-- C10 witness: both resolvers at a concrete ASCII callsign and index. -/
theorem c10_witness :
    Enricher.enrich_callsign [(("SP").data, 1), (("S").data, 2)] (("SP5T").data)
      = Except.ok (Enricher.enrich_callsign2
          [(("SP").data, 1), (("S").data, 2)] (("SP5T").data)) :=
  c10_resolvers_agree [(("SP").data, 1), (("S").data, 2)] (("SP5T").data)
    (by decide) (by decide)

/-! ### Round trip (claim C1) -/

/-- C1 counterexample: the input `QSO : A` parses to a log whose header
key is `QSO`; serializing that log emits the line `QSO: A`, which
re-parses as a malformed contact line, so the round trip errors instead
of reproducing the log. -/
theorem c1_counterexample :
    parse (("QSO : A").data) = Except.ok ⟨[(("QSO").data, ("A").data)], []⟩
      ∧ parse (serialize ⟨[(("QSO").data, ("A").data)], []⟩)
          = Except.error (CabrilloError.InvalidFormat msgInvalidQso) :=
  ⟨rfl, rfl⟩

/-! #### String toolkit: trimming -/

theorem trimStart_head_not_ws (s : RStr) (c : Char)
    (h : (trimStart s).head? = some c) : isRustWs c = false := by
  induction s with
  | nil => exact Option.noConfusion h
  | cons a t ih =>
    unfold trimStart at h
    rw [List.dropWhile_cons] at h
    by_cases ha : isRustWs a = true
    · rw [if_pos ha] at h
      exact ih h
    · rw [if_neg ha] at h
      rw [← Option.some.inj h]
      exact Bool.not_eq_true _ ▸ (Bool.eq_false_iff.mpr ha)

theorem trimStart_eq_self (s : RStr)
    (h : ∀ c, s.head? = some c → isRustWs c = false) : trimStart s = s := by
  cases s with
  | nil => rfl
  | cons a t =>
    unfold trimStart
    rw [List.dropWhile_cons, if_neg]
    rw [h a rfl]
    exact Bool.false_ne_true

theorem trimEnd_getLast_not_ws (s : RStr) (c : Char)
    (h : (trimEnd s).getLast? = some c) : isRustWs c = false := by
  unfold trimEnd at h
  rw [List.getLast?_reverse] at h
  exact trimStart_head_not_ws s.reverse c h

theorem trimEnd_eq_self (s : RStr)
    (h : ∀ c, s.getLast? = some c → isRustWs c = false) : trimEnd s = s := by
  have h1 : trimStart s.reverse = s.reverse :=
    trimStart_eq_self s.reverse (fun c hc => h c (by rw [← List.head?_reverse]; exact hc))
  unfold trimEnd
  rw [show List.dropWhile isRustWs s.reverse = trimStart s.reverse from rfl, h1,
    List.reverse_reverse]

theorem mem_trimEnd (s : RStr) (c : Char) (h : c ∈ trimEnd s) : c ∈ s := by
  unfold trimEnd at h
  rw [List.mem_reverse] at h
  have h2 := (List.dropWhile_sublist isRustWs).subset h
  exact List.mem_reverse.mp h2

theorem mem_trim (s : RStr) (c : Char) (h : c ∈ trim s) : c ∈ s := by
  unfold trim trimStart at h
  exact mem_trimEnd s c ((List.dropWhile_sublist _).subset h)

theorem trim_head_not_ws (s : RStr) (c : Char)
    (h : (trim s).head? = some c) : isRustWs c = false :=
  trimStart_head_not_ws (trimEnd s) c h

theorem getLast?_dropWhile_of_ne_nil (p : Char → Bool) (l : List Char)
    (h : l.dropWhile p ≠ []) : (l.dropWhile p).getLast? = l.getLast? := by
  obtain ⟨pre, hpre⟩ := List.dropWhile_suffix p (l := l)
  conv_rhs => rw [← hpre]
  rw [List.getLast?_append_of_ne_nil _ h]

theorem trim_getLast_not_ws (s : RStr) (c : Char)
    (h : (trim s).getLast? = some c) : isRustWs c = false := by
  unfold trim trimStart at h
  by_cases hnil : (trimEnd s).dropWhile isRustWs = []
  · rw [hnil] at h
    exact Option.noConfusion h
  · rw [getLast?_dropWhile_of_ne_nil isRustWs (trimEnd s) hnil] at h
    exact trimEnd_getLast_not_ws s c h

theorem trim_trim (s : RStr) : trim (trim s) = trim s := by
  show trimStart (trimEnd (trim s)) = trim s
  rw [trimEnd_eq_self (trim s) (fun c hc => trim_getLast_not_ws s c hc),
    trimStart_eq_self (trim s) (fun c hc => trim_head_not_ws s c hc)]

theorem dropWhile_append' (p : Char → Bool) (l₁ l₂ : List Char) :
    (l₁ ++ l₂).dropWhile p
      = if l₁.dropWhile p = [] then l₂.dropWhile p else l₁.dropWhile p ++ l₂ := by
  induction l₁ with
  | nil => simp
  | cons a t ih =>
    rw [List.cons_append, List.dropWhile_cons, List.dropWhile_cons]
    by_cases hp : p a = true
    · rw [if_pos hp, if_pos hp, ih]
    · rw [if_neg hp, if_neg hp, if_neg (List.cons_ne_nil a t), List.cons_append]

theorem trimEnd_append (a b : RStr) :
    trimEnd (a ++ b) = if trimEnd b = [] then trimEnd a else a ++ trimEnd b := by
  unfold trimEnd
  rw [List.reverse_append, dropWhile_append']
  by_cases hb : b.reverse.dropWhile isRustWs = []
  · rw [if_pos hb, if_pos (by rw [hb]; rfl)]
  · rw [if_neg hb, if_neg (by
      intro hcon
      exact hb (by rw [← List.reverse_reverse (b.reverse.dropWhile isRustWs), hcon]; rfl)),
      List.reverse_append, List.reverse_reverse]

theorem trimEnd_eq_nil_iff (s : RStr) : trimEnd s = [] ↔ ∀ c ∈ s, isRustWs c = true := by
  unfold trimEnd
  rw [List.reverse_eq_nil_iff, List.dropWhile_eq_nil_iff]
  constructor
  · intro h c hc
    exact h c (List.mem_reverse.mpr hc)
  · intro h c hc
    exact h c (List.mem_reverse.mp hc)

/-! #### String toolkit: whitespace splitting -/

theorem splitWsAux_token (tok : RStr) (h : ∀ c ∈ tok, isRustWs c = false) :
    ∀ cur rest, splitWsAux cur (tok ++ rest) = splitWsAux (cur ++ tok) rest := by
  induction tok with
  | nil => intro cur rest; rw [List.nil_append, List.append_nil]
  | cons a t ih =>
    intro cur rest
    rw [List.cons_append]
    show (if isRustWs a then _ else splitWsAux (cur ++ [a]) (t ++ rest)) = _
    rw [if_neg (by rw [h a (List.mem_cons_self a t)]; exact Bool.false_ne_true),
      ih (fun c hc => h c (List.mem_cons_of_mem a hc)) (cur ++ [a]) rest,
      List.append_assoc, List.singleton_append]

theorem splitWsAux_all_ws (w : RStr) (hw : ∀ c ∈ w, isRustWs c = true) :
    splitWsAux [] w = [] := by
  induction w with
  | nil => rfl
  | cons a t ih =>
    show (if isRustWs a then _ else _) = _
    rw [if_pos (hw a (List.mem_cons_self a t))]
    show (if ([] : RStr) = [] then splitWsAux [] t else _) = _
    rw [if_pos rfl]
    exact ih (fun c hc => hw c (List.mem_cons_of_mem a hc))

theorem splitWsAux_ws_start (w : RStr) (hw : ∀ c ∈ w, isRustWs c = true) :
    ∀ s, splitWsAux [] (w ++ s) = splitWsAux [] s := by
  induction w with
  | nil => intro s; rfl
  | cons a t ih =>
    intro s
    rw [List.cons_append]
    show (if isRustWs a then _ else _) = _
    rw [if_pos (hw a (List.mem_cons_self a t))]
    show (if ([] : RStr) = [] then splitWsAux [] (t ++ s) else _) = _
    rw [if_pos rfl]
    exact ih (fun c hc => hw c (List.mem_cons_of_mem a hc)) s

theorem splitWsAux_ws_end (w : RStr) (hw : ∀ c ∈ w, isRustWs c = true) :
    ∀ a cur, splitWsAux cur (a ++ w) = splitWsAux cur a := by
  intro a
  induction a with
  | nil =>
    intro cur
    rw [List.nil_append]
    cases w with
    | nil => rfl
    | cons c t =>
      show (if isRustWs c then _ else _) = _
      rw [if_pos (hw c (List.mem_cons_self c t))]
      by_cases hcur : cur = []
      · rw [if_pos hcur, hcur]
        exact splitWsAux_all_ws t (fun c' hc' => hw c' (List.mem_cons_of_mem c hc'))
      · rw [if_neg hcur]
        show cur :: splitWsAux [] t = if cur = [] then [] else [cur]
        rw [if_neg hcur,
          splitWsAux_all_ws t (fun c' hc' => hw c' (List.mem_cons_of_mem c hc'))]
  | cons x a' ih =>
    intro cur
    rw [List.cons_append]
    show (if isRustWs x then _ else _) = (if isRustWs x then _ else _)
    by_cases hx : isRustWs x = true
    · rw [if_pos hx, if_pos hx]
      by_cases hcur : cur = []
      · rw [if_pos hcur, if_pos hcur, ih []]
      · rw [if_neg hcur, if_neg hcur, ih []]
    · rw [if_neg hx, if_neg hx, ih (cur ++ [x])]

theorem splitWs_trimStart (s : RStr) : splitWs (trimStart s) = splitWs s := by
  unfold splitWs
  conv_rhs => rw [← List.takeWhile_append_dropWhile (p := isRustWs) (l := s)]
  rw [splitWsAux_ws_start (s.takeWhile isRustWs)
    (fun c hc => List.mem_takeWhile_imp hc)]
  rfl

theorem splitWs_trimEnd (s : RStr) : splitWs (trimEnd s) = splitWs s := by
  unfold splitWs
  have hdecomp : s = trimEnd s ++ (s.reverse.takeWhile isRustWs).reverse := by
    unfold trimEnd
    rw [← List.reverse_append, List.takeWhile_append_dropWhile, List.reverse_reverse]
  conv_rhs => rw [hdecomp]
  rw [splitWsAux_ws_end (s.reverse.takeWhile isRustWs).reverse
    (fun c hc => List.mem_takeWhile_imp (List.mem_reverse.mp hc))]

theorem splitWs_trim (s : RStr) : splitWs (trim s) = splitWs s := by
  unfold trim
  rw [splitWs_trimStart, splitWs_trimEnd]

theorem splitWsAux_chunk (tok w : RStr) (htok : goodTok tok)
    (hw : ∀ c ∈ w, isRustWs c = true) (hwne : w ≠ []) (r : RStr) :
    splitWsAux [] (tok ++ (w ++ r)) = tok :: splitWsAux [] r := by
  rw [splitWsAux_token tok htok.2 [] (w ++ r), List.nil_append]
  cases w with
  | nil => exact absurd rfl hwne
  | cons c t =>
    rw [List.cons_append]
    show (if isRustWs c then _ else _) = _
    rw [if_pos (hw c (List.mem_cons_self c t))]
    show (if tok = [] then _ else tok :: splitWsAux [] (t ++ r)) = _
    rw [if_neg htok.1,
      splitWsAux_ws_start t (fun c' hc' => hw c' (List.mem_cons_of_mem c hc')) r]

theorem splitWsAux_token_end (tok w : RStr) (htok : goodTok tok)
    (hw : ∀ c ∈ w, isRustWs c = true) :
    splitWsAux [] (tok ++ w) = [tok] := by
  rw [splitWsAux_token tok htok.2 [] w, List.nil_append]
  have hend := splitWsAux_ws_end w hw [] tok
  rw [List.nil_append] at hend
  rw [hend]
  show (if tok = [] then _ else _) = _
  rw [if_neg htok.1]

theorem splitWsAux_join_chunk (w : RStr)
    (hw : ∀ c ∈ w, isRustWs c = true) (hwne : w ≠ []) :
    ∀ ts : List RStr, (∀ t ∈ ts, goodTok t) → ∀ r,
      splitWsAux [] (joinSpace ts ++ (w ++ r)) = ts ++ splitWsAux [] r := by
  intro ts
  induction ts with
  | nil =>
    intro _ r
    rw [show joinSpace [] = [] from rfl, List.nil_append, List.nil_append]
    exact splitWsAux_ws_start w hw r
  | cons t ts' ih =>
    intro hgood r
    cases ts' with
    | nil =>
      rw [show joinSpace [t] = t from rfl]
      rw [splitWsAux_chunk t w (hgood t (List.mem_cons_self t [])) hw hwne r]
      rfl
    | cons u ts'' =>
      have hjs : joinSpace (t :: u :: ts'') ++ (w ++ r)
          = t ++ ([' '] ++ (joinSpace (u :: ts'') ++ (w ++ r))) := by
        rw [show joinSpace (t :: u :: ts'') = t ++ ' ' :: joinSpace (u :: ts'') from rfl,
          List.append_assoc]
        rfl
      rw [hjs, splitWsAux_chunk t [' '] (hgood t (List.mem_cons_self t _))
        (fun c hc => by rw [List.mem_singleton.mp hc]; rfl)
        (List.cons_ne_nil ' ' []) (joinSpace (u :: ts'') ++ (w ++ r)),
        ih (fun t' ht' => hgood t' (List.mem_cons_of_mem t ht')) r]
      rfl

theorem splitWsAux_join_end (w : RStr) (hw : ∀ c ∈ w, isRustWs c = true) :
    ∀ ts : List RStr, (∀ t ∈ ts, goodTok t) →
      splitWsAux [] (joinSpace ts ++ w) = ts := by
  intro ts
  induction ts with
  | nil =>
    intro _
    rw [show joinSpace [] = [] from rfl, List.nil_append]
    exact splitWsAux_all_ws w hw
  | cons t ts' ih =>
    intro hgood
    cases ts' with
    | nil =>
      rw [show joinSpace [t] = t from rfl]
      exact splitWsAux_token_end t w (hgood t (List.mem_cons_self t [])) hw
    | cons u ts'' =>
      have hjs : joinSpace (t :: u :: ts'') ++ w
          = t ++ ([' '] ++ (joinSpace (u :: ts'') ++ w)) := by
        rw [show joinSpace (t :: u :: ts'') = t ++ ' ' :: joinSpace (u :: ts'') from rfl,
          List.append_assoc]
        rfl
      rw [hjs, splitWsAux_chunk t [' '] (hgood t (List.mem_cons_self t _))
        (fun c hc => by rw [List.mem_singleton.mp hc]; rfl)
        (List.cons_ne_nil ' ' []) (joinSpace (u :: ts'') ++ w),
        ih (fun t' ht' => hgood t' (List.mem_cons_of_mem t ht'))]

theorem splitWs_good (s : RStr) : ∀ t ∈ splitWs s, goodTok t := by
  have aux : ∀ (s cur : RStr), (∀ c ∈ cur, isRustWs c = false) →
      ∀ t ∈ splitWsAux cur s, goodTok t := by
    intro s
    induction s with
    | nil =>
      intro cur hcur t ht
      by_cases hc : cur = []
      · rw [show splitWsAux cur [] = if cur = [] then [] else [cur] from rfl,
          if_pos hc] at ht
        exact absurd ht (List.not_mem_nil t)
      · rw [show splitWsAux cur [] = if cur = [] then [] else [cur] from rfl,
          if_neg hc] at ht
        rw [List.mem_singleton.mp ht]
        exact ⟨hc, hcur⟩
    | cons a s' ih =>
      intro cur hcur t ht
      rw [show splitWsAux cur (a :: s')
        = if isRustWs a then (if cur = [] then splitWsAux [] s'
            else cur :: splitWsAux [] s')
          else splitWsAux (cur ++ [a]) s' from rfl] at ht
      by_cases ha : isRustWs a = true
      · rw [if_pos ha] at ht
        by_cases hc : cur = []
        · rw [if_pos hc] at ht
          exact ih [] (fun c hc' => absurd hc' (List.not_mem_nil c)) t ht
        · rw [if_neg hc] at ht
          rcases List.mem_cons.mp ht with heq | hmem
          · rw [heq]; exact ⟨hc, hcur⟩
          · exact ih [] (fun c hc' => absurd hc' (List.not_mem_nil c)) t hmem
      · rw [if_neg ha] at ht
        refine ih (cur ++ [a]) ?_ t ht
        intro c hc
        rcases List.mem_append.mp hc with h1 | h1
        · exact hcur c h1
        · rw [List.mem_singleton.mp h1]
          exact Bool.eq_false_iff.mpr ha
  exact aux s [] (fun c hc => absurd hc (List.not_mem_nil c))

/-! #### Digit printing and parsing -/

theorem digitChar_not_ws (d : Nat) : isRustWs (Nat.digitChar d) = false := by
  by_cases h : d < 16
  · interval_cases d <;> decide
  · have hstar : Nat.digitChar d = '*' := by
      unfold Nat.digitChar
      repeat rw [if_neg (by omega)]
    rw [hstar]
    decide

theorem digitChar_spec (d : Nat) (h : d < 10) :
    (Nat.digitChar d).isDigit = true ∧ digitVal (Nat.digitChar d) = d
      ∧ Nat.digitChar d ≠ '-' ∧ Nat.digitChar d ≠ '+' := by
  interval_cases d <;> exact ⟨rfl, rfl, by decide, by decide⟩

theorem natChars_digit (n : Nat) : ∀ c ∈ natChars n, c.isDigit = true := by
  unfold natChars
  by_cases h0 : n = 0
  · rw [if_pos h0]
    intro c hc
    rw [List.mem_singleton.mp hc]
    rfl
  · rw [if_neg h0]
    intro c hc
    rw [List.mem_reverse] at hc
    obtain ⟨d, hd, hdc⟩ := List.mem_map.mp hc
    rw [← hdc]
    exact (digitChar_spec d (Nat.digits_lt_base (by norm_num) hd)).1

theorem natChars_ne_nil (n : Nat) : natChars n ≠ [] := by
  unfold natChars
  by_cases h0 : n = 0
  · rw [if_pos h0]
    exact List.cons_ne_nil '0' []
  · rw [if_neg h0]
    intro hcon
    rw [List.reverse_eq_nil_iff, List.map_eq_nil_iff] at hcon
    exact (Nat.digits_ne_nil_iff_ne_zero.mpr h0) hcon

theorem foldl_digits_acc (l : List Nat) (hl : ∀ d ∈ l, d < 10) :
    ∀ acc, (l.reverse.map Nat.digitChar).foldl (fun a c => 10 * a + digitVal c) acc
      = acc * 10 ^ l.length + Nat.ofDigits 10 l := by
  induction l with
  | nil =>
    intro acc
    simp [Nat.ofDigits]
  | cons d l' ih =>
    intro acc
    rw [List.reverse_cons, List.map_append, List.foldl_append,
      ih (fun x hx => hl x (List.mem_cons_of_mem d hx)) acc]
    simp only [List.map_cons, List.map_nil, List.foldl_cons, List.foldl_nil]
    rw [(digitChar_spec d (hl d (List.mem_cons_self d l'))).2.1, Nat.ofDigits_cons,
      List.length_cons]
    push_cast
    ring

theorem valOf_natChars (n : Nat) : valOfDigitChars (natChars n) = n := by
  unfold natChars
  by_cases h0 : n = 0
  · rw [if_pos h0, h0]
    rfl
  · rw [if_neg h0]
    unfold valOfDigitChars
    rw [← List.map_reverse,
      foldl_digits_acc (Nat.digits 10 n) (fun d hd => Nat.digits_lt_base (by norm_num) hd) 0,
      Nat.zero_mul, Nat.zero_add, Nat.ofDigits_digits]

theorem pad2_digit (n : Nat) (h : n ≤ 99) : ∀ c ∈ pad2 n, c.isDigit = true := by
  intro c hc
  unfold pad2 at hc
  rcases List.mem_cons.mp hc with h1 | h1
  · rw [h1]
    exact (digitChar_spec (n / 10) (by omega)).1
  · rw [List.mem_singleton.mp h1]
    exact (digitChar_spec (n % 10) (by omega)).1

theorem valOf_pad2 (n : Nat) (h : n ≤ 99) : valOfDigitChars (pad2 n) = n := by
  unfold valOfDigitChars pad2
  simp only [List.foldl_cons, List.foldl_nil]
  rw [(digitChar_spec (n / 10) (by omega)).2.1, (digitChar_spec (n % 10) (by omega)).2.1]
  omega

theorem pad4_digit (n : Nat) (h : n ≤ 9999) : ∀ c ∈ pad4 n, c.isDigit = true := by
  intro c hc
  unfold pad4 at hc
  rcases List.mem_cons.mp hc with h1 | hc
  · rw [h1]; exact (digitChar_spec (n / 1000) (by omega)).1
  rcases List.mem_cons.mp hc with h1 | hc
  · rw [h1]; exact (digitChar_spec (n / 100 % 10) (by omega)).1
  rcases List.mem_cons.mp hc with h1 | hc
  · rw [h1]; exact (digitChar_spec (n / 10 % 10) (by omega)).1
  · rw [List.mem_singleton.mp hc]
    exact (digitChar_spec (n % 10) (by omega)).1

theorem valOf_pad4 (n : Nat) (h : n ≤ 9999) : valOfDigitChars (pad4 n) = n := by
  unfold valOfDigitChars pad4
  simp only [List.foldl_cons, List.foldl_nil]
  rw [(digitChar_spec (n / 1000) (by omega)).2.1,
    (digitChar_spec (n / 100 % 10) (by omega)).2.1,
    (digitChar_spec (n / 10 % 10) (by omega)).2.1,
    (digitChar_spec (n % 10) (by omega)).2.1]
  omega

theorem takeWhile_all (p : Char → Bool) (l : RStr) (h : ∀ c ∈ l, p c = true) :
    l.takeWhile p = l := by
  induction l with
  | nil => rfl
  | cons a t ih =>
    rw [List.takeWhile_cons, if_pos (h a (List.mem_cons_self a t)),
      ih (fun c hc => h c (List.mem_cons_of_mem a hc))]

theorem takeWhile_append_stop (p : Char → Bool) (l1 : RStr)
    (h1 : ∀ c ∈ l1, p c = true) (c : Char) (h2 : p c = false) (l2 : RStr) :
    (l1 ++ c :: l2).takeWhile p = l1 := by
  induction l1 with
  | nil =>
    rw [List.nil_append, List.takeWhile_cons, if_neg (by rw [h2]; exact Bool.false_ne_true)]
  | cons a t ih =>
    rw [List.cons_append, List.takeWhile_cons, if_pos (h1 a (List.mem_cons_self a t)),
      ih (fun x hx => h1 x (List.mem_cons_of_mem a hx))]

/-! #### Date and time round trips -/

theorem formatTime_digits (t : NaiveTime) (hv : validTime t = true) :
    ∀ c ∈ formatTime t, Char.isDigit c = true := by
  have hb : t.hour ≤ 23 ∧ t.minute ≤ 59 := of_decide_eq_true hv
  intro c hc
  unfold formatTime at hc
  rcases List.mem_append.mp hc with h | h
  · exact pad2_digit t.hour (by omega) c h
  · exact pad2_digit t.minute (by omega) c h

theorem parseTimeStr_format (t : NaiveTime) (hv : validTime t = true) :
    parseTimeStr (formatTime t) = some t := by
  have hb : t.hour ≤ 23 ∧ t.minute ≤ 59 := of_decide_eq_true hv
  have htw : (formatTime t).takeWhile Char.isDigit = pad2 t.hour ++ pad2 t.minute :=
    takeWhile_all Char.isDigit (formatTime t) (formatTime_digits t hv)
  have htake : (pad2 t.hour ++ pad2 t.minute).take 2 = pad2 t.hour := by
    rw [show (2 : Nat) = (pad2 t.hour).length from rfl, List.take_left]
  have hdrop : (formatTime t).drop (pad2 t.hour).length = pad2 t.minute := by
    unfold formatTime
    rw [List.drop_left]
  have htwm : (pad2 t.minute).takeWhile Char.isDigit = pad2 t.minute :=
    takeWhile_all Char.isDigit (pad2 t.minute) (pad2_digit t.minute (by omega))
  have htakem : (pad2 t.minute).take 2 = pad2 t.minute := by
    rw [show (2 : Nat) = (pad2 t.minute).length from rfl, List.take_length]
  have hparts : timeParts (formatTime t) = some (t.hour, t.minute) := by
    simp only [timeParts, htw, htake, hdrop, htwm, htakem]
    rw [if_neg (by intro h; exact List.cons_ne_nil _ _ h)]
    rw [if_neg (by intro h; exact List.cons_ne_nil _ _ h)]
    rw [if_neg (by intro h; exact h (by rw [List.drop_length]))]
    rw [valOf_pad2 t.hour (by omega), valOf_pad2 t.minute (by omega)]
  unfold parseTimeStr
  rw [hparts]
  dsimp only
  rw [if_pos hv]

theorem natChars_not_ws (n : Nat) : ∀ c ∈ natChars n, isRustWs c = false := by
  unfold natChars
  by_cases h0 : n = 0
  · rw [if_pos h0]
    intro c hc
    rw [List.mem_singleton.mp hc]
    rfl
  · rw [if_neg h0]
    intro c hc
    rw [List.mem_reverse] at hc
    obtain ⟨dd, _, hdc⟩ := List.mem_map.mp hc
    rw [← hdc]
    exact digitChar_not_ws dd

theorem pad2_not_ws (n : Nat) : ∀ c ∈ pad2 n, isRustWs c = false := by
  intro c hc
  rcases List.mem_cons.mp hc with h1 | h1
  · rw [h1]; exact digitChar_not_ws _
  · rw [List.mem_singleton.mp h1]; exact digitChar_not_ws _

theorem pad4_not_ws (n : Nat) : ∀ c ∈ pad4 n, isRustWs c = false := by
  intro c hc
  rcases List.mem_cons.mp hc with h1 | hc
  · rw [h1]; exact digitChar_not_ws _
  rcases List.mem_cons.mp hc with h1 | hc
  · rw [h1]; exact digitChar_not_ws _
  rcases List.mem_cons.mp hc with h1 | hc
  · rw [h1]; exact digitChar_not_ws _
  · rw [List.mem_singleton.mp hc]; exact digitChar_not_ws _

theorem formatYear_not_ws (y : Int) : ∀ c ∈ formatYear y, isRustWs c = false := by
  unfold formatYear
  intro c hc
  split_ifs at hc with h1 h2 h3
  · rcases List.mem_cons.mp hc with he | hm
    · rw [he]; rfl
    · exact pad4_not_ws _ c hm
  · rcases List.mem_cons.mp hc with he | hm
    · rw [he]; rfl
    · exact natChars_not_ws _ c hm
  · exact pad4_not_ws _ c hc
  · rcases List.mem_cons.mp hc with he | hm
    · rw [he]; rfl
    · exact natChars_not_ws _ c hm

theorem formatYear_ne_nil (y : Int) : formatYear y ≠ [] := by
  unfold formatYear
  split_ifs with h1 h2 h3
  · exact List.cons_ne_nil _ _
  · exact List.cons_ne_nil _ _
  · exact List.cons_ne_nil _ _
  · exact List.cons_ne_nil _ _

theorem formatDate_good (d : NaiveDate) : goodTok (formatDate d) := by
  constructor
  · unfold formatDate
    intro hcon
    rw [List.append_eq_nil] at hcon
    exact List.cons_ne_nil _ _ hcon.2
  · intro c hc
    unfold formatDate at hc
    rcases List.mem_append.mp hc with h | h
    · rcases List.mem_append.mp h with h1 | h1
      · exact formatYear_not_ws d.year c h1
      rcases List.mem_cons.mp h1 with he | h2
      · rw [he]; rfl
      · exact pad2_not_ws _ c h2
    · rcases List.mem_cons.mp h with he | h2
      · rw [he]; rfl
      · exact pad2_not_ws _ c h2

theorem formatTime_good (t : NaiveTime) : goodTok (formatTime t) := by
  constructor
  · exact List.cons_ne_nil _ _
  · intro c hc
    unfold formatTime at hc
    rcases List.mem_append.mp hc with h | h
    · exact pad2_not_ws _ c h
    · exact pad2_not_ws _ c h

theorem daysInMonth_le_31 (y : Int) (m : Nat) : daysInMonth y m ≤ 31 := by
  unfold daysInMonth
  split_ifs <;> omega

theorem dateParts_split (s yds : RStr) (sgn : Option Bool) (y : Int) (m day : Nat)
    (hsig : (if s.head? = some '-' then some true
      else if s.head? = some '+' then some false else none) = sgn)
    (hs1 : (match sgn with | some _ => s.tail | none => s)
      = yds ++ '-' :: (pad2 m ++ '-' :: pad2 day))
    (hyd : ∀ c ∈ yds, c.isDigit = true)
    (hne : yds ≠ [])
    (hlen : sgn = none → yds.length ≤ 4)
    (hy : (if sgn = some true then -(valOfDigitChars yds : Int)
      else (valOfDigitChars yds : Int)) = y)
    (hm : m ≤ 99) (hday : day ≤ 99) :
    dateParts s = some (y, m, day) := by
  have htw1 : (yds ++ '-' :: (pad2 m ++ '-' :: pad2 day)).takeWhile Char.isDigit = yds :=
    takeWhile_append_stop Char.isDigit yds hyd '-' (by decide) _
  have hdrop1 : (yds ++ '-' :: (pad2 m ++ '-' :: pad2 day)).drop yds.length
      = '-' :: (pad2 m ++ '-' :: pad2 day) := List.drop_left _ _
  have htw2 : (pad2 m ++ '-' :: pad2 day).takeWhile Char.isDigit = pad2 m :=
    takeWhile_append_stop Char.isDigit (pad2 m) (pad2_digit m hm) '-' (by decide) _
  have htake2 : (pad2 m).take 2 = pad2 m := by
    rw [show (2 : Nat) = (pad2 m).length from rfl, List.take_length]
  have hdrop2 : (pad2 m ++ '-' :: pad2 day).drop (pad2 m).length = '-' :: pad2 day :=
    List.drop_left _ _
  have htw3 : (pad2 day).takeWhile Char.isDigit = pad2 day :=
    takeWhile_all Char.isDigit (pad2 day) (pad2_digit day hday)
  have htake3 : (pad2 day).take 2 = pad2 day := by
    rw [show (2 : Nat) = (pad2 day).length from rfl, List.take_length]
  cases sgn with
  | none =>
    dsimp only at hs1
    have htk : yds.take 4 = yds := List.take_of_length_le (hlen rfl)
    rw [← hy]
    simp only [dateParts, hsig]
    rw [hs1, htw1, htk, if_neg hne, hdrop1]
    dsimp only
    rw [if_pos rfl, htw2, htake2, if_neg (show ¬pad2 m = [] from List.cons_ne_nil _ _), hdrop2]
    dsimp only
    rw [if_pos rfl, htw3, htake3,
      if_neg (show ¬pad2 day = [] from List.cons_ne_nil _ _),
      if_neg (fun h => h (List.drop_length _)), valOf_pad2 m hm, valOf_pad2 day hday]
  | some b =>
    dsimp only at hs1
    rw [← hy]
    simp only [dateParts, hsig]
    rw [hs1, htw1, if_neg hne, hdrop1]
    dsimp only
    rw [if_pos rfl, htw2, htake2, if_neg (show ¬pad2 m = [] from List.cons_ne_nil _ _), hdrop2]
    dsimp only
    rw [if_pos rfl, htw3, htake3,
      if_neg (show ¬pad2 day = [] from List.cons_ne_nil _ _),
      if_neg (fun h => h (List.drop_length _)), valOf_pad2 m hm, valOf_pad2 day hday]

theorem parseDateStr_split (s yds : RStr) (sgn : Option Bool) (y : Int) (m day : Nat)
    (hsig : (if s.head? = some '-' then some true
      else if s.head? = some '+' then some false else none) = sgn)
    (hs1 : (match sgn with | some _ => s.tail | none => s)
      = yds ++ '-' :: (pad2 m ++ '-' :: pad2 day))
    (hyd : ∀ c ∈ yds, c.isDigit = true)
    (hne : yds ≠ [])
    (hlen : sgn = none → yds.length ≤ 4)
    (hy : (if sgn = some true then -(valOfDigitChars yds : Int)
      else (valOfDigitChars yds : Int)) = y)
    (hm : m ≤ 99) (hday : day ≤ 99) :
    parseDateStr s = if validDate ⟨y, m, day⟩ then some ⟨y, m, day⟩ else none := by
  unfold parseDateStr
  rw [dateParts_split s yds sgn y m day hsig hs1 hyd hne hlen hy hm hday]

theorem parseDateStr_format (d : NaiveDate) (hv : validDate d = true) :
    parseDateStr (formatDate d) = some d := by
  have hb : (1 ≤ d.month ∧ d.month ≤ 12 ∧ 1 ≤ d.day
      ∧ d.day ≤ daysInMonth d.year d.month ∧ -262144 ≤ d.year ∧ d.year ≤ 262143) :=
    of_decide_eq_true hv
  have hd31 : d.day ≤ 31 := le_trans hb.2.2.2.1 (daysInMonth_le_31 d.year d.month)
  have hm99 : d.month ≤ 99 := by omega
  have hday99 : d.day ≤ 99 := by omega
  by_cases hneg : d.year < 0
  · by_cases hsmall : d.year.natAbs ≤ 9999
    · have hfy : formatYear d.year = '-' :: pad4 d.year.natAbs := by
        unfold formatYear
        rw [if_pos hneg, if_pos hsmall]
      have hs : formatDate d
          = '-' :: (pad4 d.year.natAbs ++ '-' :: (pad2 d.month ++ '-' :: pad2 d.day)) := by
        unfold formatDate
        rw [hfy]
        simp only [List.cons_append, List.append_assoc]
      have hhead : (formatDate d).head? = some '-' := by rw [hs]; rfl
      have hsig : (if (formatDate d).head? = some '-' then some true
          else if (formatDate d).head? = some '+' then some false else none)
          = some true := by
        rw [hhead, if_pos rfl]
      have hs1 : (formatDate d).tail
          = pad4 d.year.natAbs ++ '-' :: (pad2 d.month ++ '-' :: pad2 d.day) := by
        rw [hs]
        rfl
      have hyv : (if (some true : Option Bool) = some true
          then -(valOfDigitChars (pad4 d.year.natAbs) : Int)
          else (valOfDigitChars (pad4 d.year.natAbs) : Int)) = d.year := by
        rw [if_pos rfl, valOf_pad4 d.year.natAbs hsmall]
        omega
      have hsplit := parseDateStr_split (formatDate d) (pad4 d.year.natAbs) (some true)
        d.year d.month d.day hsig hs1 (pad4_digit d.year.natAbs hsmall)
        (List.cons_ne_nil _ _) (fun h => Option.noConfusion h) hyv hm99 hday99
      rw [hsplit]
      show (if validDate d then some d else none) = some d
      rw [if_pos hv]
    · have hfy : formatYear d.year = '-' :: natChars d.year.natAbs := by
        unfold formatYear
        rw [if_pos hneg, if_neg hsmall]
      have hs : formatDate d
          = '-' :: (natChars d.year.natAbs ++ '-' :: (pad2 d.month ++ '-' :: pad2 d.day)) := by
        unfold formatDate
        rw [hfy]
        simp only [List.cons_append, List.append_assoc]
      have hhead : (formatDate d).head? = some '-' := by rw [hs]; rfl
      have hsig : (if (formatDate d).head? = some '-' then some true
          else if (formatDate d).head? = some '+' then some false else none)
          = some true := by
        rw [hhead, if_pos rfl]
      have hs1 : (formatDate d).tail
          = natChars d.year.natAbs ++ '-' :: (pad2 d.month ++ '-' :: pad2 d.day) := by
        rw [hs]
        rfl
      have hyv : (if (some true : Option Bool) = some true
          then -(valOfDigitChars (natChars d.year.natAbs) : Int)
          else (valOfDigitChars (natChars d.year.natAbs) : Int)) = d.year := by
        rw [if_pos rfl, valOf_natChars]
        omega
      have hsplit := parseDateStr_split (formatDate d) (natChars d.year.natAbs) (some true)
        d.year d.month d.day hsig hs1 (natChars_digit d.year.natAbs)
        (natChars_ne_nil _) (fun h => Option.noConfusion h) hyv hm99 hday99
      rw [hsplit]
      show (if validDate d then some d else none) = some d
      rw [if_pos hv]
  · by_cases hbig : d.year ≤ 9999
    · have h9999 : d.year.toNat ≤ 9999 := by omega
      have hfy : formatYear d.year = pad4 d.year.toNat := by
        unfold formatYear
        rw [if_neg hneg, if_pos hbig]
      have hs : formatDate d
          = pad4 d.year.toNat ++ '-' :: (pad2 d.month ++ '-' :: pad2 d.day) := by
        unfold formatDate
        rw [hfy]
        simp only [List.cons_append, List.append_assoc]
      have hhead : (formatDate d).head?
          = some (Nat.digitChar (d.year.toNat / 1000)) := by
        rw [hs]
        rfl
      have hsig : (if (formatDate d).head? = some '-' then some true
          else if (formatDate d).head? = some '+' then some false else none)
          = none := by
        rw [hhead,
          if_neg (fun hcon =>
            (digitChar_spec (d.year.toNat / 1000) (by omega)).2.2.1 (Option.some.inj hcon)),
          if_neg (fun hcon =>
            (digitChar_spec (d.year.toNat / 1000) (by omega)).2.2.2 (Option.some.inj hcon))]
      have hyv : (if (none : Option Bool) = some true
          then -(valOfDigitChars (pad4 d.year.toNat) : Int)
          else (valOfDigitChars (pad4 d.year.toNat) : Int)) = d.year := by
        rw [if_neg (by decide), valOf_pad4 d.year.toNat h9999]
        omega
      have hsplit := parseDateStr_split (formatDate d) (pad4 d.year.toNat) none
        d.year d.month d.day hsig hs (pad4_digit d.year.toNat h9999)
        (List.cons_ne_nil _ _) (fun _ => le_of_eq rfl) hyv hm99 hday99
      rw [hsplit]
      show (if validDate d then some d else none) = some d
      rw [if_pos hv]
    · have hfy : formatYear d.year = '+' :: natChars d.year.toNat := by
        unfold formatYear
        rw [if_neg hneg, if_neg hbig]
      have hs : formatDate d
          = '+' :: (natChars d.year.toNat ++ '-' :: (pad2 d.month ++ '-' :: pad2 d.day)) := by
        unfold formatDate
        rw [hfy]
        simp only [List.cons_append, List.append_assoc]
      have hhead : (formatDate d).head? = some '+' := by rw [hs]; rfl
      have hsig : (if (formatDate d).head? = some '-' then some true
          else if (formatDate d).head? = some '+' then some false else none)
          = some false := by
        rw [hhead, if_neg (by decide), if_pos rfl]
      have hs1 : (formatDate d).tail
          = natChars d.year.toNat ++ '-' :: (pad2 d.month ++ '-' :: pad2 d.day) := by
        rw [hs]
        rfl
      have hyv : (if (some false : Option Bool) = some true
          then -(valOfDigitChars (natChars d.year.toNat) : Int)
          else (valOfDigitChars (natChars d.year.toNat) : Int)) = d.year := by
        rw [if_neg (by decide), valOf_natChars]
        omega
      have hsplit := parseDateStr_split (formatDate d) (natChars d.year.toNat) (some false)
        d.year d.month d.day hsig hs1 (natChars_digit d.year.toNat)
        (natChars_ne_nil _) (fun h => Option.noConfusion h) hyv hm99 hday99
      rw [hsplit]
      show (if validDate d then some d else none) = some d
      rw [if_pos hv]

/-! #### Generic token-list splitting facts -/

theorem tokens_takeWhile_stop {α : Type} (p : α → Bool) (l1 : List α)
    (h1 : ∀ x ∈ l1, p x = true) (b : α) (hb : p b = false) (l2 : List α) :
    (l1 ++ b :: l2).takeWhile p = l1 := by
  induction l1 with
  | nil =>
    rw [List.nil_append, List.takeWhile_cons, if_neg (by rw [hb]; exact Bool.false_ne_true)]
  | cons a t ih =>
    rw [List.cons_append, List.takeWhile_cons, if_pos (h1 a (List.mem_cons_self a t)),
      ih (fun x hx => h1 x (List.mem_cons_of_mem a hx))]

theorem tokens_dropWhile_stop {α : Type} (p : α → Bool) (l1 : List α)
    (h1 : ∀ x ∈ l1, p x = true) (b : α) (hb : p b = false) (l2 : List α) :
    (l1 ++ b :: l2).dropWhile p = b :: l2 := by
  induction l1 with
  | nil =>
    rw [List.nil_append, List.dropWhile_cons, if_neg (by rw [hb]; exact Bool.false_ne_true)]
  | cons a t ih =>
    rw [List.cons_append, List.dropWhile_cons, if_pos (h1 a (List.mem_cons_self a t)),
      ih (fun x hx => h1 x (List.mem_cons_of_mem a hx))]

theorem dropWhile_head_false {α : Type} (p : α → Bool) (l : List α) (b : α) (t : List α)
    (h : l.dropWhile p = b :: t) : p b = false := by
  induction l with
  | nil => exact List.noConfusion h
  | cons a l' ih =>
    rw [List.dropWhile_cons] at h
    by_cases hp : p a = true
    · rw [if_pos hp] at h
      exact ih h
    · rw [if_neg hp] at h
      rw [← (List.cons.inj h).1]
      exact Bool.eq_false_iff.mpr hp

/-! #### Only valid dates and times are parsed -/

theorem parseDateStr_valid (s : RStr) (d : NaiveDate) (h : parseDateStr s = some d) :
    validDate d = true := by
  unfold parseDateStr at h
  cases hp : dateParts s with
  | none => rw [hp] at h; exact Option.noConfusion h
  | some trip =>
    obtain ⟨y, m, day⟩ := trip
    rw [hp] at h
    dsimp only at h
    by_cases hv : validDate ⟨y, m, day⟩ = true
    · rw [if_pos hv] at h
      rw [← Option.some.inj h]
      exact hv
    · rw [if_neg hv] at h
      exact Option.noConfusion h

theorem parseTimeStr_valid (s : RStr) (t : NaiveTime) (h : parseTimeStr s = some t) :
    validTime t = true := by
  unfold parseTimeStr at h
  cases hp : timeParts s with
  | none => rw [hp] at h; exact Option.noConfusion h
  | some pr =>
    obtain ⟨hh, mm⟩ := pr
    rw [hp] at h
    dsimp only at h
    by_cases hv : validTime ⟨hh, mm⟩ = true
    · rw [if_pos hv] at h
      rw [← Option.some.inj h]
      exact hv
    · rw [if_neg hv] at h
      exact Option.noConfusion h

/-! #### Parsed contacts satisfy the round-trip invariant -/

theorem parse_qso_line_good (l : RStr) (q : QSO) (h : parse_qso_line l = Except.ok q) :
    goodQso q := by
  obtain ⟨p3, p4, rest, rc, tail, hsp, hlen, hd, ht, hsplit, hdrop, hse, hrc, htx⟩ :=
    parse_qso_line_ok l q h
  have hgood := splitWs_good l
  rw [hsp] at hgood
  have hfreq : goodTok q.freq :=
    hgood q.freq (List.mem_cons_of_mem _ (List.mem_cons_self _ _))
  have hmode : goodTok q.mode :=
    hgood q.mode (List.mem_cons_of_mem _ (List.mem_cons_of_mem _ (List.mem_cons_self _ _)))
  have hsent : goodTok q.sent_call :=
    hgood q.sent_call (List.mem_cons_of_mem _ (List.mem_cons_of_mem _
      (List.mem_cons_of_mem _ (List.mem_cons_of_mem _
        (List.mem_cons_of_mem _ (List.mem_cons_self _ _))))))
  have hrest : ∀ x ∈ rest, goodTok x := by
    intro x hx
    refine hgood x ?_
    exact List.mem_cons_of_mem _ (List.mem_cons_of_mem _ (List.mem_cons_of_mem _
      (List.mem_cons_of_mem _ (List.mem_cons_of_mem _ (List.mem_cons_of_mem _ hx)))))
  have hrcmem : rc ∈ rest := by
    have : rc ∈ rest.dropWhile (fun t => !is_valid_callsign t) := by
      rw [hdrop]
      exact List.mem_cons_self rc tail
    exact (List.dropWhile_sublist _).subset this
  have htailmem : ∀ x ∈ tail, x ∈ rest := by
    intro x hx
    have : x ∈ rest.dropWhile (fun t => !is_valid_callsign t) := by
      rw [hdrop]
      exact List.mem_cons_of_mem rc hx
    exact (List.dropWhile_sublist _).subset this
  have hrcvalid : is_valid_callsign rc = true := by
    have hb : (!is_valid_callsign rc) = false :=
      dropWhile_head_false (fun t => !is_valid_callsign t) rest rc tail hdrop
    cases hvc : is_valid_callsign rc with
    | false => rw [hvc] at hb; exact Bool.noConfusion hb
    | true => rfl
  have hsts : ∀ x ∈ rest.takeWhile (fun t => !is_valid_callsign t),
      goodTok x ∧ is_valid_callsign x = false := by
    intro x hx
    refine ⟨hrest x ((List.takeWhile_sublist _).subset hx), ?_⟩
    have hp0 := List.mem_takeWhile_imp hx
    have hp : (!is_valid_callsign x) = true := hp0
    cases hvc : is_valid_callsign x with
    | false => rfl
    | true => rw [hvc] at hp; exact Bool.noConfusion hp
  have hlen2 : rest.length
      = (rest.takeWhile (fun t => !is_valid_callsign t)).length + 1 + tail.length := by
    conv_lhs => rw [← hsplit]
    rw [List.length_append, List.length_cons]
    omega
  refine ⟨hfreq, hmode, parseDateStr_valid p3 q.date hd, parseTimeStr_valid p4 q.time ht,
    hsent, hrc ▸ hgood rc (List.mem_cons_of_mem _ (List.mem_cons_of_mem _
      (List.mem_cons_of_mem _ (List.mem_cons_of_mem _
        (List.mem_cons_of_mem _ (List.mem_cons_of_mem _ hrcmem)))))),
    hrc ▸ hrcvalid, ?_⟩
  rcases htx with ⟨lt, hlast, h01, htxq, hre⟩ | ⟨lt, hlast, h01, htxq, hre⟩
  · refine ⟨rest.takeWhile (fun t => !is_valid_callsign t), tail.dropLast,
      hsts, ?_, hse, hre, ?_⟩
    · intro x hx
      exact hrest x (htailmem x ((List.dropLast_sublist _).subset hx))
    · rw [htxq]
      refine ⟨h01, ?_⟩
      have htne : tail ≠ [] := by
        intro hcon
        rw [hcon] at hlast
        exact Option.noConfusion hlast
      have : tail.dropLast.length + 1 = tail.length := by
        rw [List.length_dropLast]
        have := List.length_pos.mpr htne
        omega
      omega
  · refine ⟨rest.takeWhile (fun t => !is_valid_callsign t), tail,
      hsts, (fun x hx => hrest x (htailmem x hx)), hse, hre, ?_⟩
    rw [htxq]
    exact ⟨⟨lt, hlast, h01⟩, by omega⟩

/-! #### Splitting a line at its first colon -/

theorem splitOnceColon_eq (l : RStr) (kv : RStr × RStr)
    (h : splitOnceColon l = some kv) : ':' ∉ kv.1 ∧ l = kv.1 ++ ':' :: kv.2 := by
  induction l generalizing kv with
  | nil => exact Option.noConfusion h
  | cons c t ih =>
    unfold splitOnceColon at h
    by_cases hc : c = ':'
    · rw [if_pos hc] at h
      rw [← Option.some.inj h]
      exact ⟨List.not_mem_nil ':', by rw [List.nil_append, hc]⟩
    · rw [if_neg hc] at h
      cases hst : splitOnceColon t with
      | none => rw [hst] at h; exact Option.noConfusion h
      | some p =>
        rw [hst] at h
        dsimp only [Option.map] at h
        obtain ⟨hp1, hp2⟩ := ih p hst
        rw [← Option.some.inj h]
        constructor
        · intro hcon
          rcases List.mem_cons.mp hcon with he | hm
          · exact hc he.symm
          · exact hp1 hm
        · rw [List.cons_append, ← hp2]

/-! #### Trimming preserves a leading non-whitespace character -/

theorem head?_append_left (a b : RStr) (h : a ≠ []) : (a ++ b).head? = a.head? := by
  cases a with
  | nil => exact absurd rfl h
  | cons c t => rfl

theorem trimEnd_decomp (s : RStr) :
    ∃ w, (∀ c ∈ w, isRustWs c = true) ∧ trimEnd s ++ w = s := by
  refine ⟨(s.reverse.takeWhile isRustWs).reverse, ?_, ?_⟩
  · intro c hc
    exact List.mem_takeWhile_imp (List.mem_reverse.mp hc)
  · show (s.reverse.dropWhile isRustWs).reverse
        ++ (s.reverse.takeWhile isRustWs).reverse = s
    rw [← List.reverse_append, List.takeWhile_append_dropWhile, List.reverse_reverse]

theorem trim_head?_eq (s : RStr) (h0 : Char) (hh : s.head? = some h0)
    (hws : isRustWs h0 = false) : (trim s).head? = some h0 := by
  obtain ⟨w, hw, hdec⟩ := trimEnd_decomp s
  have hne : trimEnd s ≠ [] := by
    intro hcon
    cases s with
    | nil => exact Option.noConfusion hh
    | cons a t =>
      have hmem := (trimEnd_eq_nil_iff (a :: t)).mp hcon a (List.mem_cons_self a t)
      rw [Option.some.inj hh] at hmem
      rw [hws] at hmem
      exact Bool.noConfusion hmem
  have hh2 : (trimEnd s).head? = some h0 := by
    have hstep := head?_append_left (trimEnd s) w hne
    rw [hdec] at hstep
    rw [← hstep]
    exact hh
  show (trimStart (trimEnd s)).head? = some h0
  rw [trimStart_eq_self (trimEnd s) (fun c hc => by
    rw [hh2] at hc
    rw [← Option.some.inj hc]
    exact hws)]
  exact hh2

/-! #### The byte-lexicographic order -/

theorem strLt_irrefl (a : RStr) : strLt a a = false := by
  induction a with
  | nil => rfl
  | cons c t ih =>
    show (if c < c then true else if c < c then false else strLt t t) = false
    rw [if_neg (lt_irrefl c), if_neg (lt_irrefl c), ih]

theorem strLt_asymm (a b : RStr) (h : strLt a b = true) : strLt b a = false := by
  induction a generalizing b with
  | nil =>
    cases b with
    | nil => exact Bool.noConfusion h
    | cons d u => rfl
  | cons c t ih =>
    cases b with
    | nil => exact Bool.noConfusion h
    | cons d u =>
      have hh : (if c < d then true else if d < c then false else strLt t u) = true := h
      show (if d < c then true else if c < d then false else strLt u t) = false
      by_cases h1 : c < d
      · rw [if_neg (asymm h1), if_pos h1]
      · by_cases h2 : d < c
        · rw [if_neg h1, if_pos h2] at hh
          exact Bool.noConfusion hh
        · rw [if_neg h1, if_neg h2] at hh
          rw [if_neg h2, if_neg h1, ih u hh]

theorem strLt_trans (a b c : RStr) (h1 : strLt a b = true) (h2 : strLt b c = true) :
    strLt a c = true := by
  induction a generalizing b c with
  | nil =>
    cases c with
    | nil =>
      cases b with
      | nil => exact Bool.noConfusion h2
      | cons y u => exact Bool.noConfusion h2
    | cons z v => rfl
  | cons x t ih =>
    cases b with
    | nil => exact Bool.noConfusion h1
    | cons y u =>
      cases c with
      | nil => exact Bool.noConfusion h2
      | cons z v =>
        have h1' : (if x < y then true else if y < x then false else strLt t u) = true := h1
        have h2' : (if y < z then true else if z < y then false else strLt u v) = true := h2
        show (if x < z then true else if z < x then false else strLt t v) = true
        by_cases hxy : x < y
        · by_cases hyz : y < z
          · rw [if_pos (lt_trans hxy hyz)]
          · by_cases hzy : z < y
            · rw [if_neg hyz, if_pos hzy] at h2'
              exact Bool.noConfusion h2'
            · have heq : y = z := le_antisymm (not_lt.mp hzy) (not_lt.mp hyz)
              rw [if_pos (heq ▸ hxy)]
        · by_cases hyx : y < x
          · rw [if_neg hxy, if_pos hyx] at h1'
            exact Bool.noConfusion h1'
          · have heq : x = y := le_antisymm (not_lt.mp hyx) (not_lt.mp hxy)
            rw [if_neg hxy, if_neg hyx] at h1'
            by_cases hyz : y < z
            · rw [if_pos (heq ▸ hyz)]
            · by_cases hzy : z < y
              · rw [if_neg hyz, if_pos hzy] at h2'
                exact Bool.noConfusion h2'
              · have heq2 : y = z := le_antisymm (not_lt.mp hzy) (not_lt.mp hyz)
                have hxz : ¬x < z := by rw [heq, heq2]; exact lt_irrefl z
                have hzx : ¬z < x := by rw [heq, heq2]; exact lt_irrefl z
                rw [if_neg hyz, if_neg hzy] at h2'
                rw [if_neg hxz, if_neg hzx]
                exact ih u v h1' h2'

theorem strLt_conn (a b : RStr) (hne : a ≠ b) :
    strLt a b = true ∨ strLt b a = true := by
  induction a generalizing b with
  | nil =>
    cases b with
    | nil => exact absurd rfl hne
    | cons d u => exact Or.inl rfl
  | cons c t ih =>
    cases b with
    | nil => exact Or.inr rfl
    | cons d u =>
      by_cases hcd : c < d
      · refine Or.inl ?_
        show (if c < d then true else if d < c then false else strLt t u) = true
        rw [if_pos hcd]
      · by_cases hdc : d < c
        · refine Or.inr ?_
          show (if d < c then true else if c < d then false else strLt u t) = true
          rw [if_pos hdc]
        · have heq : c = d := le_antisymm (not_lt.mp hdc) (not_lt.mp hcd)
          have htu : t ≠ u := by
            intro hcon
            exact hne (by rw [heq, hcon])
          rcases ih u htu with h | h
          · refine Or.inl ?_
            show (if c < d then true else if d < c then false else strLt t u) = true
            rw [if_neg hcd, if_neg hdc]
            exact h
          · refine Or.inr ?_
            show (if d < c then true else if c < d then false else strLt u t) = true
            rw [if_neg hdc, if_neg hcd]
            exact h

/-! #### Sorted insertion into the header list -/

theorem headerInsert_mem (hs : List (RStr × RStr)) (k v : RStr) (p : RStr × RStr)
    (h : p ∈ headerInsert hs k v) : p ∈ hs ∨ p = (k, v) := by
  induction hs with
  | nil => exact Or.inr (List.mem_singleton.mp h)
  | cons q t ih =>
    obtain ⟨k', v'⟩ := q
    unfold headerInsert at h
    by_cases h1 : strLt k k' = true
    · rw [if_pos h1] at h
      rcases List.mem_cons.mp h with he | hm
      · exact Or.inr he
      · exact Or.inl hm
    · rw [if_neg h1] at h
      by_cases h2 : k = k'
      · rw [if_pos h2] at h
        rcases List.mem_cons.mp h with he | hm
        · exact Or.inr he
        · exact Or.inl (List.mem_cons_of_mem _ hm)
      · rw [if_neg h2] at h
        rcases List.mem_cons.mp h with he | hm
        · exact Or.inl (he ▸ List.mem_cons_self _ _)
        · rcases ih hm with hin | hnew
          · exact Or.inl (List.mem_cons_of_mem _ hin)
          · exact Or.inr hnew

theorem headerInsert_sorted (hs : List (RStr × RStr)) (k v : RStr)
    (h : hs.Pairwise (fun p q => strLt p.1 q.1 = true)) :
    (headerInsert hs k v).Pairwise (fun p q => strLt p.1 q.1 = true) := by
  induction hs with
  | nil => exact List.pairwise_singleton _ _
  | cons q t ih =>
    obtain ⟨k', v'⟩ := q
    obtain ⟨hhead, htail⟩ := List.pairwise_cons.mp h
    unfold headerInsert
    by_cases h1 : strLt k k' = true
    · rw [if_pos h1]
      refine List.pairwise_cons.mpr ⟨?_, h⟩
      intro b hb
      rcases List.mem_cons.mp hb with he | hm
      · rw [he]
        exact h1
      · exact strLt_trans k k' b.1 h1 (hhead b hm)
    · rw [if_neg h1]
      by_cases h2 : k = k'
      · rw [if_pos h2]
        refine List.pairwise_cons.mpr ⟨?_, htail⟩
        intro b hb
        rw [h2]
        exact hhead b hb
      · rw [if_neg h2]
        refine List.pairwise_cons.mpr ⟨?_, ih htail⟩
        intro b hb
        rcases headerInsert_mem t k v b hb with hin | hnew
        · exact hhead b hin
        · rw [hnew]
          rcases strLt_conn k k' h2 with hc | hc
          · exact absurd hc h1
          · exact hc

/-! #### Lines carry no line feed -/

theorem mem_stripCr (l : RStr) (c : Char) (h : c ∈ stripCr l) : c ∈ l := by
  unfold stripCr at h
  by_cases hcr : l.getLast? = some '\r'
  · rw [if_pos hcr] at h
    exact (List.dropLast_sublist l).subset h
  · rw [if_neg hcr] at h
    exact h

theorem linesAux_no_lf (s : RStr) :
    ∀ cur, ('\n') ∉ cur → ∀ l ∈ linesAux cur s, ('\n') ∉ l := by
  induction s with
  | nil =>
    intro cur hcur l hl
    by_cases hc : cur = []
    · rw [show linesAux cur [] = if cur = [] then [] else [cur] from rfl, if_pos hc] at hl
      exact absurd hl (List.not_mem_nil l)
    · rw [show linesAux cur [] = if cur = [] then [] else [cur] from rfl, if_neg hc] at hl
      rw [List.mem_singleton.mp hl]
      exact hcur
  | cons c t ih =>
    intro cur hcur l hl
    rw [show linesAux cur (c :: t)
      = if c = '\n' then stripCr cur :: linesAux [] t else linesAux (cur ++ [c]) t
      from rfl] at hl
    by_cases hc : c = '\n'
    · rw [if_pos hc] at hl
      rcases List.mem_cons.mp hl with he | hm
      · rw [he]
        intro hcon
        exact hcur (mem_stripCr cur '\n' hcon)
      · exact ih [] (List.not_mem_nil '\n') l hm
    · rw [if_neg hc] at hl
      refine ih (cur ++ [c]) ?_ l hl
      intro hcon
      rcases List.mem_append.mp hcon with hm | hm
      · exact hcur hm
      · exact hc (List.mem_singleton.mp hm).symm

theorem linesOf_no_lf (s : RStr) : ∀ l ∈ linesOf s, ('\n') ∉ l :=
  linesAux_no_lf s [] (List.not_mem_nil '\n')

/-! #### The parser preserves the round-trip invariant -/

theorem header_pair_good (l : RStr) (kv : RStr × RStr) (hnl : ('\n') ∉ l)
    (hA : ¬(trim l = [] ∨ (trim l).head? = some '#'))
    (hsc : splitOnceColon (trim l) = some kv) :
    goodHeader (trim kv.1, trim kv.2) := by
  obtain ⟨hcolon, hdec⟩ := splitOnceColon_eq (trim l) kv hsc
  have hmem1 : ∀ c ∈ trim kv.1, c ∈ l := by
    intro c hc
    refine mem_trim l c ?_
    rw [hdec]
    exact List.mem_append_left _ (mem_trim kv.1 c hc)
  have hmem2 : ∀ c ∈ trim kv.2, c ∈ l := by
    intro c hc
    refine mem_trim l c ?_
    rw [hdec]
    exact List.mem_append_right _ (List.mem_cons_of_mem ':' (mem_trim kv.2 c hc))
  refine ⟨trimStart_eq_self _ (fun c hc => trim_head_not_ws kv.1 c hc),
    trimEnd_eq_self _ (fun c hc => trim_getLast_not_ws kv.1 c hc),
    (fun hc => hcolon (mem_trim kv.1 ':' hc)),
    (fun hc => hnl (hmem1 '\n' hc)), ?_,
    trimStart_eq_self _ (fun c hc => trim_head_not_ws kv.2 c hc),
    trimEnd_eq_self _ (fun c hc => trim_getLast_not_ws kv.2 c hc),
    (fun hc => hnl (hmem2 '\n' hc))⟩
  intro hcon
  cases hk1 : kv.1 with
  | nil =>
    rw [hk1] at hcon
    exact Option.noConfusion hcon
  | cons c t =>
    have hlh : (trim l).head? = some c := by
      rw [hdec, hk1]
      rfl
    have hcws : isRustWs c = false := trim_head_not_ws l c hlh
    have hch : c ≠ '#' := by
      intro he
      exact hA (Or.inr (by rw [hlh, he]))
    have hkh : (trim kv.1).head? = some c := by
      rw [hk1]
      exact trim_head?_eq (c :: t) c rfl hcws
    rw [hkh] at hcon
    exact hch (Option.some.inj hcon)

theorem processLine_good (st st' : ParseState) (l : RStr) (hnl : ('\n') ∉ l)
    (hst : goodState st) (h : processLine st l = Except.ok st') : goodState st' := by
  obtain ⟨hH, hS, hQ⟩ := hst
  unfold processLine at h
  by_cases hA : trim l = [] ∨ (trim l).head? = some '#'
  · rw [if_pos hA] at h
    cases h
    exact ⟨hH, hS, hQ⟩
  · rw [if_neg hA] at h
    by_cases hB : sSTART.isPrefixOf (trim l) = true ∨ sEND.isPrefixOf (trim l) = true
    · rw [if_pos hB] at h
      cases h
      exact ⟨hH, hS, hQ⟩
    · rw [if_neg hB] at h
      have hqso : ∀ q : QSO, parse_qso_line (trim l) = Except.ok q →
          goodState ⟨st.headers, st.qsos ++ [q], false⟩ := by
        intro q hpq
        refine ⟨hH, hS, ?_⟩
        intro q' hq'
        rcases List.mem_append.mp hq' with hm | hm
        · exact hQ q' hm
        · rw [List.mem_singleton.mp hm]
          exact parse_qso_line_good (trim l) q hpq
      by_cases hHdr : st.inHeader = true
      · rw [if_pos hHdr] at h
        by_cases hq : sQSO.isPrefixOf (trim l) = true
        · rw [if_pos hq] at h
          cases hpq : parse_qso_line (trim l) with
          | error e => rw [hpq] at h; exact Except.noConfusion h
          | ok q =>
            rw [hpq] at h
            cases h
            exact hqso q hpq
        · rw [if_neg hq] at h
          by_cases hx : sXQSO.isPrefixOf (trim l) = true
          · rw [if_pos hx] at h
            cases h
            exact ⟨hH, hS, hQ⟩
          · rw [if_neg hx] at h
            cases hsc : splitOnceColon (trim l) with
            | none =>
              rw [hsc] at h
              cases h
              exact ⟨hH, hS, hQ⟩
            | some kv =>
              rw [hsc] at h
              cases h
              refine ⟨?_, headerInsert_sorted st.headers (trim kv.1) (trim kv.2) hS, hQ⟩
              intro p hp
              rcases headerInsert_mem st.headers (trim kv.1) (trim kv.2) p hp with hm | hm
              · exact hH p hm
              · rw [hm]
                exact header_pair_good l kv hnl hA hsc
      · rw [if_neg hHdr] at h
        by_cases hq : sQSO.isPrefixOf (trim l) = true
        · rw [if_pos hq] at h
          cases hpq : parse_qso_line (trim l) with
          | error e => rw [hpq] at h; exact Except.noConfusion h
          | ok q =>
            rw [hpq] at h
            cases h
            exact hqso q hpq
        · rw [if_neg hq] at h
          cases h
          exact ⟨hH, hS, hQ⟩

theorem processLines_good (ls : List RStr) :
    ∀ st st', (∀ l ∈ ls, ('\n') ∉ l) → goodState st →
      processLines st ls = Except.ok st' → goodState st' := by
  induction ls with
  | nil =>
    intro st st' _ hst h
    cases h
    exact hst
  | cons a t ih =>
    intro st st' hnl hst h
    unfold processLines at h
    cases hpa : processLine st a with
    | error e => rw [hpa] at h; exact Except.noConfusion h
    | ok st1 =>
      rw [hpa] at h
      exact ih st1 st' (fun l hl => hnl l (List.mem_cons_of_mem a hl))
        (processLine_good st st1 a (hnl a (List.mem_cons_self a t)) hst hpa) h

theorem parse_good (content : RStr) (log : CabrilloLog)
    (h : parse content = Except.ok log) :
    (∀ p ∈ log.headers, goodHeader p)
      ∧ log.headers.Pairwise (fun p q => strLt p.1 q.1 = true)
      ∧ ∀ q ∈ log.qsos, goodQso q := by
  obtain ⟨st, hf, hh, hq⟩ := parse_ok_elim content log h
  have hgs : goodState st := by
    refine processLines_good (linesOf content) ⟨[], [], true⟩ st
      (linesOf_no_lf content) ⟨?_, List.Pairwise.nil, ?_⟩ hf
    · intro p hp
      exact absurd hp (List.not_mem_nil p)
    · intro q hq'
      exact absurd hq' (List.not_mem_nil q)
  refine ⟨?_, ?_, ?_⟩
  · rw [hh]
    exact hgs.1
  · rw [hh]
    exact hgs.2.1
  · rw [hq]
    exact hgs.2.2

/-! #### Re-sorting an already sorted header list is the identity -/

theorem headerInsert_append (acc : List (RStr × RStr)) (k v : RStr)
    (h : ∀ p ∈ acc, strLt p.1 k = true) :
    headerInsert acc k v = acc ++ [(k, v)] := by
  induction acc with
  | nil => rfl
  | cons q t ih =>
    obtain ⟨k', v'⟩ := q
    have hq : strLt k' k = true := h (k', v') (List.mem_cons_self _ _)
    have h1 : ¬strLt k k' = true := by
      rw [strLt_asymm k' k hq]
      exact Bool.false_ne_true
    have h2 : ¬k = k' := by
      intro he
      rw [he, strLt_irrefl] at hq
      exact Bool.noConfusion hq
    unfold headerInsert
    rw [if_neg h1, if_neg h2, ih (fun p hp => h p (List.mem_cons_of_mem _ hp)),
      List.cons_append]

theorem foldl_headerInsert_sorted (hs : List (RStr × RStr)) :
    ∀ acc, hs.Pairwise (fun p q => strLt p.1 q.1 = true) →
      (∀ p ∈ acc, ∀ q ∈ hs, strLt p.1 q.1 = true) →
      hs.foldl (fun a p => headerInsert a p.1 p.2) acc = acc ++ hs := by
  induction hs with
  | nil =>
    intro acc _ _
    rw [List.foldl_nil, List.append_nil]
  | cons q t ih =>
    intro acc hsort hcross
    rw [List.foldl_cons]
    have hins : headerInsert acc q.1 q.2 = acc ++ [q] :=
      headerInsert_append acc q.1 q.2
        (fun p hp => hcross p hp q (List.mem_cons_self _ _))
    have hcross2 : ∀ p ∈ acc ++ [q], ∀ r ∈ t, strLt p.1 r.1 = true := by
      intro p hp r hr
      rcases List.mem_append.mp hp with hm | hm
      · exact hcross p hm r (List.mem_cons_of_mem _ hr)
      · rw [List.mem_singleton.mp hm]
        exact (List.pairwise_cons.mp hsort).1 r hr
    rw [hins, ih (acc ++ [q]) (List.pairwise_cons.mp hsort).2 hcross2,
      List.append_assoc, List.singleton_append]

theorem sortHeaders_sorted (hs : List (RStr × RStr))
    (h : hs.Pairwise (fun p q => strLt p.1 q.1 = true)) : sortHeaders hs = hs := by
  unfold sortHeaders
  have hfold := foldl_headerInsert_sorted hs [] h
    (fun p hp => absurd hp (List.not_mem_nil p))
  rw [hfold, List.nil_append]

/-! #### Splitting a printed contact line back into its tokens -/

theorem splitWsAux_pad_chunk (tok : RStr) (htok : goodTok tok) (w : Nat) (r : RStr) :
    splitWsAux [] (pad w tok ++ ([' '] ++ r)) = tok :: splitWsAux [] r := by
  unfold pad
  rw [List.append_assoc, ← List.append_assoc (List.replicate (w - tok.length) ' ') [' '] r]
  refine splitWsAux_chunk tok (List.replicate (w - tok.length) ' ' ++ [' ']) htok ?_ ?_ r
  · intro c hc
    rcases List.mem_append.mp hc with hm | hm
    · rw [List.eq_of_mem_replicate hm]
      rfl
    · rw [List.mem_singleton.mp hm]
      rfl
  · intro hcon
    rw [List.append_eq_nil] at hcon
    exact List.cons_ne_nil _ _ hcon.2

theorem splitWsAux_pad_join_chunk (ts : List RStr) (hts : ∀ t ∈ ts, goodTok t)
    (w : Nat) (r : RStr) :
    splitWsAux [] (pad w (joinSpace ts) ++ ([' '] ++ r)) = ts ++ splitWsAux [] r := by
  unfold pad
  rw [List.append_assoc,
    ← List.append_assoc (List.replicate (w - (joinSpace ts).length) ' ') [' '] r]
  refine splitWsAux_join_chunk
    (List.replicate (w - (joinSpace ts).length) ' ' ++ [' ']) ?_ ?_ ts hts r
  · intro c hc
    rcases List.mem_append.mp hc with hm | hm
    · rw [List.eq_of_mem_replicate hm]
      rfl
    · rw [List.mem_singleton.mp hm]
      rfl
  · intro hcon
    rw [List.append_eq_nil] at hcon
    exact List.cons_ne_nil _ _ hcon.2

theorem splitWsAux_pad_join_end (ts : List RStr) (hts : ∀ t ∈ ts, goodTok t) (w : Nat) :
    splitWsAux [] (pad w (joinSpace ts)) = ts := by
  unfold pad
  exact splitWsAux_join_end (List.replicate (w - (joinSpace ts).length) ' ')
    (fun c hc => by rw [List.eq_of_mem_replicate hc]; rfl) ts hts

theorem splitWsAux_pad_join_tx (ts : List RStr) (hts : ∀ t ∈ ts, goodTok t)
    (w : Nat) (t : RStr) (ht : goodTok t) :
    splitWsAux [] (pad w (joinSpace ts) ++ (' ' :: t)) = ts ++ [t] := by
  unfold pad
  rw [List.append_assoc]
  have hre : List.replicate (w - (joinSpace ts).length) ' ' ++ (' ' :: t)
      = (List.replicate (w - (joinSpace ts).length) ' ' ++ [' ']) ++ t := by
    rw [List.append_assoc]
    rfl
  rw [hre]
  have hsingle : splitWsAux [] t = [t] := by
    have h2 := splitWsAux_token_end t [] ht (fun c hc => absurd hc (List.not_mem_nil c))
    rw [List.append_nil] at h2
    exact h2
  rw [splitWsAux_join_chunk
    (List.replicate (w - (joinSpace ts).length) ' ' ++ [' ']) ?_ ?_ ts hts t, hsingle]
  · intro c hc
    rcases List.mem_append.mp hc with hm | hm
    · rw [List.eq_of_mem_replicate hm]
      rfl
    · rw [List.mem_singleton.mp hm]
      rfl
  · intro hcon
    rw [List.append_eq_nil] at hcon
    exact List.cons_ne_nil _ _ hcon.2

theorem splitWs_qsoLine (q : QSO) (sts rts : List RStr)
    (hfreq : goodTok q.freq) (hmode : goodTok q.mode)
    (hscall : goodTok q.sent_call) (hrcall : goodTok q.rcvd_call)
    (hsts : ∀ t ∈ sts, goodTok t) (hrts : ∀ t ∈ rts, goodTok t)
    (hse : q.sent_rst_exch = joinSpace sts) (hre : q.rcvd_rst_exch = joinSpace rts)
    (htx : ∀ t, q.tx = some t → goodTok t) :
    splitWs (qsoLine q) = sQSO :: q.freq :: q.mode :: formatDate q.date
      :: formatTime q.time :: q.sent_call
      :: (sts ++ q.rcvd_call :: (rts ++ txChunk q.tx)) := by
  have hws : ∀ c ∈ ([' '] : RStr), isRustWs c = true := by
    intro c hc
    rw [List.mem_singleton.mp hc]
    rfl
  have hne : ([' '] : RStr) ≠ [] := List.cons_ne_nil _ _
  have hqso : goodTok sQSO := ⟨by decide, by decide⟩
  cases hq : q.tx with
  | none =>
    have hform : qsoLine q = sQSO ++ ([' '] ++ (q.freq ++ ([' '] ++ (q.mode ++ ([' '] ++ (formatDate q.date ++ ([' '] ++ (formatTime q.time ++ ([' '] ++ (pad 13 q.sent_call ++ ([' '] ++ (pad 8 (joinSpace sts) ++ ([' '] ++ (pad 13 q.rcvd_call ++ ([' '] ++ pad 8 (joinSpace rts)))))))))))))))) := by
      simp only [qsoLine, hq, hse, hre, List.append_assoc, List.append_nil]
      rfl
    unfold splitWs
    rw [hform,
      splitWsAux_chunk sQSO [' '] hqso hws hne,
      splitWsAux_chunk q.freq [' '] hfreq hws hne,
      splitWsAux_chunk q.mode [' '] hmode hws hne,
      splitWsAux_chunk (formatDate q.date) [' '] (formatDate_good q.date) hws hne,
      splitWsAux_chunk (formatTime q.time) [' '] (formatTime_good q.time) hws hne,
      splitWsAux_pad_chunk q.sent_call hscall 13,
      splitWsAux_pad_join_chunk sts hsts 8,
      splitWsAux_pad_chunk q.rcvd_call hrcall 13,
      splitWsAux_pad_join_end rts hrts 8,
      show txChunk (none : Option RStr) = [] from rfl, List.append_nil]
  | some t =>
    have hgt : goodTok t := htx t hq
    have hform : qsoLine q = sQSO ++ ([' '] ++ (q.freq ++ ([' '] ++ (q.mode ++ ([' '] ++ (formatDate q.date ++ ([' '] ++ (formatTime q.time ++ ([' '] ++ (pad 13 q.sent_call ++ ([' '] ++ (pad 8 (joinSpace sts) ++ ([' '] ++ (pad 13 q.rcvd_call ++ ([' '] ++ (pad 8 (joinSpace rts) ++ (' ' :: t))))))))))))))))) := by
      simp only [qsoLine, hq, hse, hre, List.append_assoc]
      rfl
    unfold splitWs
    rw [hform,
      splitWsAux_chunk sQSO [' '] hqso hws hne,
      splitWsAux_chunk q.freq [' '] hfreq hws hne,
      splitWsAux_chunk q.mode [' '] hmode hws hne,
      splitWsAux_chunk (formatDate q.date) [' '] (formatDate_good q.date) hws hne,
      splitWsAux_chunk (formatTime q.time) [' '] (formatTime_good q.time) hws hne,
      splitWsAux_pad_chunk q.sent_call hscall 13,
      splitWsAux_pad_join_chunk sts hsts 8,
      splitWsAux_pad_chunk q.rcvd_call hrcall 13,
      splitWsAux_pad_join_tx rts hrts 8 t hgt,
      show txChunk (some t) = [t] from rfl]

theorem parse_qso_line_roundtrip (q : QSO) (hq : goodQso q) :
    parse_qso_line (trim (qsoLine q)) = Except.ok q := by
  obtain ⟨hfreq, hmode, hvd, hvt, hscall, hrcall, hrcv, sts, rts, hsts, hrts, hse, hre,
    htxm⟩ := hq
  have htxg : ∀ t, q.tx = some t → goodTok t := by
    intro t ht
    rw [ht] at htxm
    dsimp only at htxm
    rcases htxm.1 with h0 | h1
    · rw [h0]
      exact ⟨by decide, by decide⟩
    · rw [h1]
      exact ⟨by decide, by decide⟩
  have hsp : splitWs (trim (qsoLine q)) = sQSO :: q.freq :: q.mode :: formatDate q.date
      :: formatTime q.time :: q.sent_call
      :: (sts ++ q.rcvd_call :: (rts ++ txChunk q.tx)) := by
    rw [splitWs_trim]
    exact splitWs_qsoLine q sts rts hfreq hmode hscall hrcall
      (fun t ht => (hsts t ht).1) hrts hse hre htxg
  have hlen4 : 4 ≤ (sts ++ q.rcvd_call :: (rts ++ txChunk q.tx)).length := by
    cases htq : q.tx with
    | none =>
      rw [htq] at htxm
      dsimp only at htxm
      rw [show txChunk (none : Option RStr) = [] from rfl, List.append_nil,
        List.length_append, List.length_cons]
      omega
    | some t =>
      rw [htq] at htxm
      dsimp only at htxm
      rw [show txChunk (some t) = [t] from rfl, List.length_append, List.length_cons,
        List.length_append, List.length_singleton]
      omega
  have htake : (sts ++ q.rcvd_call :: (rts ++ txChunk q.tx)).takeWhile
      (fun t => !is_valid_callsign t) = sts :=
    tokens_takeWhile_stop _ sts
      (fun x hx => by
        show (!is_valid_callsign x) = true
        rw [(hsts x hx).2]
        rfl)
      q.rcvd_call
      (by
        show (!is_valid_callsign q.rcvd_call) = false
        rw [hrcv]
        rfl)
      (rts ++ txChunk q.tx)
  have hdropw : (sts ++ q.rcvd_call :: (rts ++ txChunk q.tx)).dropWhile
      (fun t => !is_valid_callsign t) = q.rcvd_call :: (rts ++ txChunk q.tx) :=
    tokens_dropWhile_stop _ sts
      (fun x hx => by
        show (!is_valid_callsign x) = true
        rw [(hsts x hx).2]
        rfl)
      q.rcvd_call
      (by
        show (!is_valid_callsign q.rcvd_call) = false
        rw [hrcv]
        rfl)
      (rts ++ txChunk q.tx)
  unfold parse_qso_line
  rw [hsp]
  dsimp only
  rw [if_pos ⟨hlen4, rfl⟩, parseDateStr_format q.date hvd]
  dsimp only
  rw [parseTimeStr_format q.time hvt]
  dsimp only
  rw [htake, hdropw]
  dsimp only
  cases htq : q.tx with
  | some t =>
    rw [htq] at htxm
    dsimp only at htxm
    rw [show txChunk (some t) = [t] from rfl, List.getLast?_concat]
    dsimp only
    rw [if_pos htxm.1]
    rw [List.dropLast_concat]
    rw [← hse, ← hre, ← htq]
  | none =>
    rw [htq] at htxm
    dsimp only at htxm
    obtain ⟨⟨lt, hlast, h01⟩, _⟩ := htxm
    rw [show txChunk (none : Option RStr) = [] from rfl, List.append_nil, hlast]
    dsimp only
    rw [if_neg h01]
    rw [← hse, ← hre, ← htq]

theorem qsoLine_decomp (q : QSO) :
    ∃ r, qsoLine q = sQSO ++ (' ' :: (q.freq ++ r)) := by
  refine ⟨[' '] ++ (q.mode ++ ([' '] ++ (formatDate q.date ++ ([' '] ++ (formatTime q.time ++ ([' '] ++ (pad 13 q.sent_call ++ ([' '] ++ (pad 8 q.sent_rst_exch ++ ([' '] ++ (pad 13 q.rcvd_call ++ ([' '] ++ (pad 8 q.rcvd_rst_exch ++ (match q.tx with | some t => ' ' :: t | none => ([] : RStr))))))))))))))), ?_⟩
  simp only [qsoLine, List.append_assoc]
  rfl

theorem trim_qsoLine_qso (q : QSO) (hfreq : goodTok q.freq) :
    sQSO.isPrefixOf (trim (qsoLine q)) = true
      ∧ (trim (qsoLine q)).head? = some 'Q' := by
  obtain ⟨r, hdec⟩ := qsoLine_decomp q
  have hbne : trimEnd (' ' :: (q.freq ++ r)) ≠ [] := by
    intro hcon
    have hall := (trimEnd_eq_nil_iff _).mp hcon
    cases hf : q.freq with
    | nil => exact hfreq.1 hf
    | cons c0 t0 =>
      have hc0ws : isRustWs c0 = false :=
        hfreq.2 c0 (by rw [hf]; exact List.mem_cons_self _ _)
      have hc0mem : c0 ∈ ' ' :: (q.freq ++ r) :=
        List.mem_cons_of_mem _ (List.mem_append_left _
          (by rw [hf]; exact List.mem_cons_self _ _))
      rw [hall c0 hc0mem] at hc0ws
      exact Bool.noConfusion hc0ws
  have hts : trim (qsoLine q) = sQSO ++ trimEnd (' ' :: (q.freq ++ r)) := by
    show trimStart (trimEnd (qsoLine q)) = _
    rw [hdec, trimEnd_append, if_neg hbne, trimStart_eq_self]
    intro c hc
    rw [show (sQSO ++ trimEnd (' ' :: (q.freq ++ r))).head? = some 'Q' from rfl] at hc
    rw [← Option.some.inj hc]
    rfl
  constructor
  · rw [hts]
    exact List.isPrefixOf_iff_prefix.mpr (List.prefix_append _ _)
  · rw [hts]
    rfl

theorem processLine_qso_ok (st : ParseState) (l : RStr) (q : QSO)
    (hq : sQSO.isPrefixOf (trim l) = true)
    (hok : parse_qso_line (trim l) = Except.ok q) :
    processLine st l = Except.ok ⟨st.headers, st.qsos ++ [q], false⟩ := by
  have hhead : (trim l).head? = some 'Q' := isPrefixOf_head sQSO (trim l) hq (by decide)
  have hA : ¬(trim l = [] ∨ (trim l).head? = some '#') := by
    rintro (hnil | hhash)
    · rw [hnil] at hhead
      exact Option.noConfusion hhead
    · rw [hhash] at hhead
      exact absurd (Option.some.inj hhead) (by decide)
  have hB : ¬(sSTART.isPrefixOf (trim l) = true ∨ sEND.isPrefixOf (trim l) = true) := by
    rintro (hs | hs)
    · have := isPrefixOf_head sSTART (trim l) hs (by decide)
      rw [hhead] at this
      exact absurd (Option.some.inj this) (by decide)
    · have := isPrefixOf_head sEND (trim l) hs (by decide)
      rw [hhead] at this
      exact absurd (Option.some.inj this) (by decide)
  unfold processLine
  rw [if_neg hA, if_neg hB]
  by_cases hH : st.inHeader = true
  · rw [if_pos hH, if_pos hq, hok]
  · rw [if_neg hH, if_pos hq, hok]

theorem processLine_qsoLine (st : ParseState) (q : QSO) (hq : goodQso q) :
    processLine st (qsoLine q) = Except.ok ⟨st.headers, st.qsos ++ [q], false⟩ :=
  processLine_qso_ok st (qsoLine q) q (trim_qsoLine_qso q hq.1).1
    (parse_qso_line_roundtrip q hq)

/-! #### Re-parsing a printed header line -/

theorem marker_key_eq (m : RStr) : ∀ k r : RStr, ':' ∉ m → ':' ∉ k →
    (m ++ [':']).isPrefixOf (k ++ ':' :: r) = true → m = k := by
  induction m with
  | nil =>
    intro k r _ hk h
    cases k with
    | nil => rfl
    | cons c t =>
      have h' : ((':' == c) && List.isPrefixOf [] (t ++ ':' :: r)) = true := h
      rw [Bool.and_eq_true] at h'
      exact absurd (by rw [← beq_iff_eq.mp h'.1]; exact List.mem_cons_self ':' t) hk
  | cons a m' ih =>
    intro k r hm hk h
    cases k with
    | nil =>
      have h' : ((a == ':') && (m' ++ [':']).isPrefixOf r) = true := h
      rw [Bool.and_eq_true] at h'
      exact absurd (by rw [beq_iff_eq.mp h'.1]; exact List.mem_cons_self ':' m') hm
    | cons b k' =>
      have h' : ((a == b) && (m' ++ [':']).isPrefixOf (k' ++ ':' :: r)) = true := h
      rw [Bool.and_eq_true] at h'
      rw [beq_iff_eq.mp h'.1,
        ih k' r (fun hmem => hm (List.mem_cons_of_mem a hmem))
          (fun hmem => hk (List.mem_cons_of_mem b hmem)) h'.2]

theorem splitOnceColon_append (k : RStr) (r : RStr) (hk : ':' ∉ k) :
    splitOnceColon (k ++ ':' :: r) = some (k, r) := by
  induction k with
  | nil => rfl
  | cons c t ih =>
    have hc : c ≠ ':' := fun he => hk (by rw [← he]; exact List.mem_cons_self c t)
    show (if c = ':' then some ([], t ++ ':' :: r)
      else (splitOnceColon (t ++ ':' :: r)).map (fun p => (c :: p.1, p.2)))
        = some (c :: t, r)
    rw [if_neg hc, ih (fun hm => hk (List.mem_cons_of_mem c hm))]
    rfl

theorem header_key_head_not_ws (k : RStr) (hk1 : trimStart k = k) (z : RStr) (c : Char)
    (hc : (k ++ ':' :: z).head? = some c) : isRustWs c = false := by
  cases k with
  | nil =>
    rw [List.nil_append] at hc
    rw [← Option.some.inj hc]
    rfl
  | cons a t =>
    have hh : ((a :: t : RStr) ++ ':' :: z).head? = some a := rfl
    rw [hh] at hc
    rw [← Option.some.inj hc]
    exact trimStart_head_not_ws (a :: t) a (by rw [hk1]; rfl)

theorem trim_headerLine (p : RStr × RStr) (hp : goodHeader p) :
    trim (headerLine p) = p.1 ++ ':' :: (if p.2 = [] then [] else ' ' :: p.2) := by
  obtain ⟨hk1, hk2, _, _, _, hv1, hv2, _⟩ := hp
  by_cases hv : p.2 = []
  · rw [if_pos hv]
    have hL : headerLine p = p.1 ++ [':', ' '] := by
      unfold headerLine
      rw [hv]
    rw [hL]
    show trimStart (trimEnd (p.1 ++ [':', ' '])) = p.1 ++ [':']
    have h1 : trimEnd ([':', ' '] : RStr) = [':'] := by decide
    rw [trimEnd_append, h1, if_neg (List.cons_ne_nil ':' []),
      trimStart_eq_self _ (fun c hc => header_key_head_not_ws p.1 hk1 [] c hc)]
  · rw [if_neg hv]
    have hbeq : trimEnd (':' :: ' ' :: p.2) = ':' :: ' ' :: p.2 := by
      refine trimEnd_eq_self _ ?_
      intro c hc
      have hb2 : ((':' :: ' ' :: p.2 : RStr)).getLast? = p.2.getLast? := by
        show (([':', ' '] : RStr) ++ p.2).getLast? = p.2.getLast?
        exact List.getLast?_append_of_ne_nil _ hv
      rw [hb2] at hc
      exact trimEnd_getLast_not_ws p.2 c (by rw [hv2]; exact hc)
    show trimStart (trimEnd (p.1 ++ ':' :: ' ' :: p.2)) = p.1 ++ ':' :: ' ' :: p.2
    rw [trimEnd_append, hbeq, if_neg (List.cons_ne_nil _ _),
      trimStart_eq_self _ (fun c hc => header_key_head_not_ws p.1 hk1 (' ' :: p.2) c hc)]

theorem processLine_headerLine (st : ParseState) (p : RStr × RStr)
    (hH : st.inHeader = true) (hp : goodHeader p) (hnm : p.1 ∉ markerKeys) :
    processLine st (headerLine p)
      = Except.ok ⟨headerInsert st.headers p.1 p.2, st.qsos, true⟩ := by
  have hkc : ':' ∉ p.1 := hp.2.2.1
  have hph : p.1.head? ≠ some '#' := hp.2.2.2.2.1
  have htr := trim_headerLine p hp
  have hnotpre : ∀ m0 : RStr, ':' ∉ m0 → m0 ∈ markerKeys →
      (m0 ++ [':']).isPrefixOf (p.1 ++ ':' :: (if p.2 = [] then [] else ' ' :: p.2))
        = true → False := by
    intro m0 hm0 hmem hpre
    exact hnm (marker_key_eq m0 p.1 _ hm0 hkc hpre ▸ hmem)
  have hA : ¬(trim (headerLine p) = []
      ∨ (trim (headerLine p)).head? = some '#') := by
    rw [htr]
    rintro (h1 | h2)
    · rw [List.append_eq_nil] at h1
      exact List.cons_ne_nil _ _ h1.2
    · cases hk : p.1 with
      | nil =>
        rw [hk, List.nil_append] at h2
        exact absurd (Option.some.inj h2) (by decide)
      | cons a t =>
        rw [hk] at h2
        have ha : a = '#' := Option.some.inj h2
        rw [hk] at hph
        exact hph (by rw [ha]; rfl)
  have hB : ¬(sSTART.isPrefixOf (trim (headerLine p)) = true
      ∨ sEND.isPrefixOf (trim (headerLine p)) = true) := by
    rintro (h | h)
    · exact hnotpre (("START-OF-LOG").data) (by decide) (by decide) (htr ▸ h)
    · exact hnotpre (("END-OF-LOG").data) (by decide) (by decide) (htr ▸ h)
  have htk : trim p.1 = p.1 := by
    show trimStart (trimEnd p.1) = p.1
    rw [hp.2.1, hp.1]
  have htv : trim (if p.2 = [] then [] else ' ' :: p.2) = p.2 := by
    by_cases hv : p.2 = []
    · rw [if_pos hv, hv]
      rfl
    · rw [if_neg hv]
      have hbeq : trimEnd (' ' :: p.2) = ' ' :: p.2 := by
        refine trimEnd_eq_self _ ?_
        intro c hc
        have hb2 : ((' ' :: p.2 : RStr)).getLast? = p.2.getLast? := by
          show (([' '] : RStr) ++ p.2).getLast? = p.2.getLast?
          exact List.getLast?_append_of_ne_nil _ hv
        rw [hb2] at hc
        exact trimEnd_getLast_not_ws p.2 c (by rw [hp.2.2.2.2.2.2.1]; exact hc)
      show trimStart (trimEnd (' ' :: p.2)) = p.2
      rw [hbeq]
      show List.dropWhile isRustWs (' ' :: p.2) = p.2
      rw [List.dropWhile_cons, if_pos (by decide)]
      exact hp.2.2.2.2.2.1
  unfold processLine
  rw [if_neg hA, if_neg hB, if_pos hH,
    if_neg (show ¬sQSO.isPrefixOf (trim (headerLine p)) = true from
      fun h => hnotpre (("QSO").data) (by decide) (by decide) (htr ▸ h)),
    if_neg (show ¬sXQSO.isPrefixOf (trim (headerLine p)) = true from
      fun h => hnotpre (("X-QSO").data) (by decide) (by decide) (htr ▸ h)),
    htr, splitOnceColon_append p.1 _ hkc]
  dsimp only
  rw [htk, htv, hH]

/-! #### Reading back the serializer's lines -/

theorem linesAux_push (l : RStr) : ('\n') ∉ l →
    ∀ cur rest, linesAux cur (l ++ rest) = linesAux (cur ++ l) rest := by
  induction l with
  | nil =>
    intro _ cur rest
    rw [List.nil_append, List.append_nil]
  | cons c t ih =>
    intro hnl cur rest
    rw [List.cons_append]
    show (if c = '\n' then _ else linesAux (cur ++ [c]) (t ++ rest)) = _
    rw [if_neg (fun he => hnl (by rw [← he]; exact List.mem_cons_self c t)),
      ih (fun hm => hnl (List.mem_cons_of_mem c hm)) (cur ++ [c]) rest,
      List.append_assoc, List.singleton_append]

theorem linesAux_newline (cur rest : RStr) :
    linesAux cur ('\n' :: rest) = stripCr cur :: linesAux [] rest := by
  show (if '\n' = '\n' then stripCr cur :: linesAux [] rest else _) = _
  rw [if_pos rfl]

theorem joinLines_cons (l : RStr) (ls : List RStr) :
    joinLines (l :: ls) = l ++ '\n' :: joinLines ls := by
  show ((l ++ ['\n']) :: ls.map (fun x => x ++ ['\n'])).flatten = _
  rw [List.flatten_cons, List.append_assoc, List.singleton_append]
  rfl

theorem linesOf_joinLines (ls : List RStr)
    (h : ∀ l ∈ ls, ('\n') ∉ l ∧ l.getLast? ≠ some '\r') :
    linesOf (joinLines ls) = ls := by
  induction ls with
  | nil => rfl
  | cons l t ih =>
    unfold linesOf
    rw [joinLines_cons,
      linesAux_push l (h l (List.mem_cons_self l t)).1 [] ('\n' :: joinLines t),
      List.nil_append, linesAux_newline,
      show stripCr l = l from by
        unfold stripCr
        rw [if_neg (h l (List.mem_cons_self l t)).2]]
    have ih2 : linesAux [] (joinLines t) = t :=
      ih (fun x hx => h x (List.mem_cons_of_mem l hx))
    rw [ih2]

/-! #### The characters of printed lines -/

theorem getLast?_mem {α : Type} (l : List α) (a : α) (h : l.getLast? = some a) :
    a ∈ l := by
  induction l with
  | nil => exact Option.noConfusion h
  | cons x t ih =>
    cases t with
    | nil =>
      rw [← Option.some.inj h]
      exact List.mem_cons_self x []
    | cons y u =>
      rw [List.getLast?_cons_cons] at h
      exact List.mem_cons_of_mem x (ih h)

theorem mem_joinSpace (ts : List RStr) (c : Char) (h : c ∈ joinSpace ts) :
    c = ' ' ∨ ∃ t ∈ ts, c ∈ t := by
  induction ts with
  | nil => exact absurd h (List.not_mem_nil c)
  | cons t u ih =>
    cases u with
    | nil => exact Or.inr ⟨t, List.mem_cons_self _ _, h⟩
    | cons u0 us =>
      have h' : c ∈ t ++ ' ' :: joinSpace (u0 :: us) := h
      rcases List.mem_append.mp h' with hm | hm
      · exact Or.inr ⟨t, List.mem_cons_self _ _, hm⟩
      · rcases List.mem_cons.mp hm with he | hm2
        · exact Or.inl he
        · rcases ih hm2 with hsp | ⟨x, hx, hcx⟩
          · exact Or.inl hsp
          · exact Or.inr ⟨x, List.mem_cons_of_mem t hx, hcx⟩

theorem mem_pad (w : Nat) (s : RStr) (c : Char) (h : c ∈ pad w s) :
    c ∈ s ∨ c = ' ' := by
  unfold pad at h
  rcases List.mem_append.mp h with hm | hm
  · exact Or.inl hm
  · exact Or.inr (List.eq_of_mem_replicate hm)

theorem qsoLine_ws_or_space (q : QSO) (hq : goodQso q) :
    ∀ c ∈ qsoLine q, isRustWs c = false ∨ c = ' ' := by
  obtain ⟨hfreq, hmode, _, _, hscall, hrcall, _, sts, rts, hsts, hrts, hse, hre,
    htxm⟩ := hq
  have hjoin : ∀ (ts : List RStr), (∀ t ∈ ts, goodTok t) →
      ∀ c ∈ joinSpace ts, isRustWs c = false ∨ c = ' ' := by
    intro ts hts c hc
    rcases mem_joinSpace ts c hc with hsp | ⟨x, hx, hcx⟩
    · exact Or.inr hsp
    · exact Or.inl ((hts x hx).2 c hcx)
  have hpadtok : ∀ (w : Nat) (t : RStr), goodTok t →
      ∀ c ∈ pad w t, isRustWs c = false ∨ c = ' ' := by
    intro w t ht c hc
    rcases mem_pad w t c hc with hm | hm
    · exact Or.inl (ht.2 c hm)
    · exact Or.inr hm
  have hpadjoin : ∀ (w : Nat) (ts : List RStr), (∀ t ∈ ts, goodTok t) →
      ∀ c ∈ pad w (joinSpace ts), isRustWs c = false ∨ c = ' ' := by
    intro w ts hts c hc
    rcases mem_pad w (joinSpace ts) c hc with hm | hm
    · exact hjoin ts hts c hm
    · exact Or.inr hm
  intro c hc
  unfold qsoLine at hc
  rcases List.mem_append.mp hc with hc | hc
  case inr =>
    cases htq : q.tx with
    | none =>
      rw [htq] at hc
      exact absurd hc (List.not_mem_nil c)
    | some t =>
      rw [htq] at hc
      dsimp only at hc
      rw [htq] at htxm
      dsimp only at htxm
      rcases List.mem_cons.mp hc with he | hm
      · exact Or.inr he
      · rcases htxm.1 with h0 | h1
        · rw [h0] at hm
          rcases List.mem_singleton.mp hm with rfl
          exact Or.inl (by decide)
        · rw [h1] at hm
          rcases List.mem_singleton.mp hm with rfl
          exact Or.inl (by decide)
  rcases List.mem_append.mp hc with hc | hc
  case inr =>
    rw [hre] at hc
    exact hpadjoin 8 rts hrts c hc
  rcases List.mem_append.mp hc with hc | hc
  case inr => exact Or.inr (List.mem_singleton.mp hc)
  rcases List.mem_append.mp hc with hc | hc
  case inr => exact hpadtok 13 q.rcvd_call hrcall c hc
  rcases List.mem_append.mp hc with hc | hc
  case inr => exact Or.inr (List.mem_singleton.mp hc)
  rcases List.mem_append.mp hc with hc | hc
  case inr =>
    rw [hse] at hc
    exact hpadjoin 8 sts (fun t ht => (hsts t ht).1) c hc
  rcases List.mem_append.mp hc with hc | hc
  case inr => exact Or.inr (List.mem_singleton.mp hc)
  rcases List.mem_append.mp hc with hc | hc
  case inr => exact hpadtok 13 q.sent_call hscall c hc
  rcases List.mem_append.mp hc with hc | hc
  case inr => exact Or.inr (List.mem_singleton.mp hc)
  rcases List.mem_append.mp hc with hc | hc
  case inr => exact Or.inl ((formatTime_good q.time).2 c hc)
  rcases List.mem_append.mp hc with hc | hc
  case inr => exact Or.inr (List.mem_singleton.mp hc)
  rcases List.mem_append.mp hc with hc | hc
  case inr => exact Or.inl ((formatDate_good q.date).2 c hc)
  rcases List.mem_append.mp hc with hc | hc
  case inr => exact Or.inr (List.mem_singleton.mp hc)
  rcases List.mem_append.mp hc with hc | hc
  case inr => exact Or.inl (hmode.2 c hc)
  rcases List.mem_append.mp hc with hc | hc
  case inr => exact Or.inr (List.mem_singleton.mp hc)
  rcases List.mem_append.mp hc with hc | hc
  case inr => exact Or.inl (hfreq.2 c hc)
  simp only [List.mem_cons, List.not_mem_nil, or_false] at hc
  rcases hc with rfl | rfl | rfl | rfl | rfl
  · exact Or.inl (by decide)
  · exact Or.inl (by decide)
  · exact Or.inl (by decide)
  · exact Or.inl (by decide)
  · exact Or.inr rfl

theorem qsoLine_line_ok (q : QSO) (hq : goodQso q) :
    ('\n') ∉ qsoLine q ∧ (qsoLine q).getLast? ≠ some '\r' := by
  have hchars := qsoLine_ws_or_space q hq
  constructor
  · intro hcon
    rcases hchars '\n' hcon with h | h
    · exact absurd h (by decide)
    · exact absurd h (by decide)
  · intro hcon
    rcases hchars '\r' (getLast?_mem _ _ hcon) with h | h
    · exact absurd h (by decide)
    · exact absurd h (by decide)

theorem headerLine_line_ok (p : RStr × RStr) (hp : goodHeader p) :
    ('\n') ∉ headerLine p ∧ (headerLine p).getLast? ≠ some '\r' := by
  obtain ⟨hk1, hk2, hkc, hknl, hkh, hv1, hv2, hvnl⟩ := hp
  constructor
  · intro hcon
    unfold headerLine at hcon
    rcases List.mem_append.mp hcon with h | h
    · exact hknl h
    rcases List.mem_cons.mp h with he | h
    · exact absurd he (by decide)
    rcases List.mem_cons.mp h with he | h
    · exact absurd he (by decide)
    · exact hvnl h
  · intro hcon
    unfold headerLine at hcon
    rw [List.getLast?_append_of_ne_nil _
      (show (':' :: ' ' :: p.2 : RStr) ≠ [] from List.cons_ne_nil _ _)] at hcon
    by_cases hv : p.2 = []
    · rw [hv] at hcon
      exact absurd hcon (by decide)
    · have h2 : ((':' :: ' ' :: p.2 : RStr)).getLast? = p.2.getLast? := by
        show (([':', ' '] : RStr) ++ p.2).getLast? = p.2.getLast?
        exact List.getLast?_append_of_ne_nil _ hv
      rw [h2] at hcon
      have hws := trimEnd_getLast_not_ws p.2 '\r' (by rw [hv2]; exact hcon)
      exact absurd hws (by decide)

/-! #### Re-parsing the whole serialized log -/

theorem processLine_skip_marker (st : ParseState) (l : RStr)
    (h1 : ¬(trim l = [] ∨ (trim l).head? = some '#'))
    (h2 : sSTART.isPrefixOf (trim l) = true ∨ sEND.isPrefixOf (trim l) = true) :
    processLine st l = Except.ok st := by
  unfold processLine
  rw [if_neg h1, if_pos h2]

theorem processLines_step (st st' : ParseState) (l : RStr) (ls : List RStr)
    (h : processLine st l = Except.ok st') :
    processLines st (l :: ls) = processLines st' ls := by
  show (match processLine st l with
    | Except.error e => Except.error e
    | Except.ok s => processLines s ls) = _
  rw [h]

theorem processLines_headers (hs : List (RStr × RStr)) :
    ∀ (acc : List (RStr × RStr)) (qs : List QSO) (rest : List RStr),
      (∀ p ∈ hs, goodHeader p ∧ p.1 ∉ markerKeys) →
      processLines ⟨acc, qs, true⟩ (hs.map headerLine ++ rest)
        = processLines ⟨hs.foldl (fun a p => headerInsert a p.1 p.2) acc, qs, true⟩
            rest := by
  induction hs with
  | nil =>
    intro acc qs rest _
    rw [List.map_nil, List.nil_append, List.foldl_nil]
  | cons p t ih =>
    intro acc qs rest hgood
    rw [List.map_cons, List.cons_append,
      processLines_step ⟨acc, qs, true⟩ ⟨headerInsert acc p.1 p.2, qs, true⟩ _ _
        (processLine_headerLine ⟨acc, qs, true⟩ p rfl
          (hgood p (List.mem_cons_self p t)).1 (hgood p (List.mem_cons_self p t)).2),
      ih (headerInsert acc p.1 p.2) qs rest
        (fun x hx => hgood x (List.mem_cons_of_mem p hx)),
      List.foldl_cons]

theorem processLines_qsos (qs : List QSO) :
    ∀ (hdrs : List (RStr × RStr)) (acc : List QSO) (b : Bool) (rest : List RStr),
      (∀ q ∈ qs, goodQso q) →
      processLines ⟨hdrs, acc, b⟩ (qs.map qsoLine ++ rest)
        = processLines ⟨hdrs, acc ++ qs, if qs = [] then b else false⟩ rest := by
  induction qs with
  | nil =>
    intro hdrs acc b rest _
    rw [List.map_nil, List.nil_append, List.append_nil, if_pos rfl]
  | cons q t ih =>
    intro hdrs acc b rest hgood
    rw [List.map_cons, List.cons_append,
      processLines_step ⟨hdrs, acc, b⟩ ⟨hdrs, acc ++ [q], false⟩ _ _
        (processLine_qsoLine ⟨hdrs, acc, b⟩ q (hgood q (List.mem_cons_self q t))),
      ih hdrs (acc ++ [q]) false rest
        (fun x hx => hgood x (List.mem_cons_of_mem q hx))]
    have e1 : (acc ++ [q]) ++ t = acc ++ q :: t := by
      rw [List.append_assoc, List.singleton_append]
    have e2 : (if t = [] then false else false) = (if q :: t = [] then b else false) := by
      rw [if_neg (List.cons_ne_nil q t)]
      by_cases ht : t = []
      · rw [if_pos ht]
      · rw [if_neg ht]
    rw [e1, e2]

theorem serialize_reparse (log : CabrilloLog)
    (hhead : ∀ p ∈ log.headers, goodHeader p)
    (hsort : log.headers.Pairwise (fun p q => strLt p.1 q.1 = true))
    (hnm : ∀ p ∈ log.headers, p.1 ∉ markerKeys)
    (hqs : ∀ q ∈ log.qsos, goodQso q) :
    parse (serialize log) = Except.ok log := by
  have hlines : linesOf (serialize log)
      = (("START-OF-LOG: 3.0").data)
        :: (log.headers.map headerLine ++ log.qsos.map qsoLine
            ++ [("END-OF-LOG:").data]) := by
    unfold serialize
    rw [sortHeaders_sorted log.headers hsort]
    refine linesOf_joinLines _ ?_
    intro l hl
    rcases List.mem_cons.mp hl with he | hl
    · rw [he]
      exact ⟨by decide, by decide⟩
    rcases List.mem_append.mp hl with hl | hl
    · rcases List.mem_append.mp hl with hl | hl
      · obtain ⟨p, hp, hlp⟩ := List.mem_map.mp hl
        rw [← hlp]
        exact headerLine_line_ok p (hhead p hp)
      · obtain ⟨x, hx, hlx⟩ := List.mem_map.mp hl
        rw [← hlx]
        exact qsoLine_line_ok x (hqs x hx)
    · rw [List.mem_singleton.mp hl]
      exact ⟨by decide, by decide⟩
  unfold parse
  rw [hlines,
    processLines_step ⟨[], [], true⟩ ⟨[], [], true⟩ _ _
      (processLine_skip_marker _ _ (by decide) (by decide)),
    List.append_assoc,
    processLines_headers log.headers [] [] _
      (fun p hp => ⟨hhead p hp, hnm p hp⟩),
    show (log.headers.foldl (fun a p => headerInsert a p.1 p.2) [])
      = sortHeaders log.headers from rfl,
    sortHeaders_sorted log.headers hsort,
    processLines_qsos log.qsos log.headers [] true _ hqs,
    List.nil_append]
  have hend : ∀ st : ParseState,
      processLines st [("END-OF-LOG:").data] = Except.ok st := by
    intro st
    show (match processLine st (("END-OF-LOG:").data) with
      | Except.error e => Except.error e
      | Except.ok s => processLines s []) = _
    rw [processLine_skip_marker st _ (by decide) (by decide)]
    rfl
  rw [hend]

/-- C1 (corrected): the round trip holds for every successfully parsed log
whose header keys avoid the four marker-colliding names `QSO`, `X-QSO`,
`START-OF-LOG` and `END-OF-LOG`: serializing such a log and parsing the
result succeeds and returns the identical log — the same header map and
the same ordered contact list with every field equal.  (Without the key
restriction the claim fails: see the counterexample, where a parsed header
key `QSO` prints as a line starting `QSO:` that re-parses as a malformed
contact line.) -/
theorem c1_round_trip (content : RStr) (log : CabrilloLog)
    (h : parse content = Except.ok log)
    (hkeys : ∀ p ∈ log.headers, p.1 ∉ markerKeys) :
    parse (serialize log) = Except.ok log := by
  obtain ⟨hhead, hsort, hqs⟩ := parse_good content log h
  exact serialize_reparse log hhead hsort hkeys hqs

/-- C1 witness: the round trip at a concrete parsed log. -/
theorem c1_witness :
    parse (("START-OF-LOG: 3.0\nCALLSIGN: N1MM\nQSO: 14000 CW 2023-10-01 1200 N1MM 599 001 W1AW 599 001 0\nEND-OF-LOG: 3.0\n").data)
        = Except.ok ⟨[(("CALLSIGN").data, ("N1MM").data)],
            [⟨("14000").data, ("CW").data, ⟨2023, 10, 1⟩, ⟨12, 0⟩, ("N1MM").data,
              ("599 001").data, ("W1AW").data, ("599 001").data,
              some (("0").data)⟩]⟩
      ∧ (∀ p ∈ ([(("CALLSIGN").data, ("N1MM").data)] : List (RStr × RStr)),
          p.1 ∉ markerKeys)
      ∧ parse (serialize ⟨[(("CALLSIGN").data, ("N1MM").data)],
            [⟨("14000").data, ("CW").data, ⟨2023, 10, 1⟩, ⟨12, 0⟩, ("N1MM").data,
              ("599 001").data, ("W1AW").data, ("599 001").data,
              some (("0").data)⟩]⟩)
          = Except.ok ⟨[(("CALLSIGN").data, ("N1MM").data)],
              [⟨("14000").data, ("CW").data, ⟨2023, 10, 1⟩, ⟨12, 0⟩, ("N1MM").data,
                ("599 001").data, ("W1AW").data, ("599 001").data,
                some (("0").data)⟩]⟩ :=
  ⟨by rfl, by decide,
    c1_round_trip
      (("START-OF-LOG: 3.0\nCALLSIGN: N1MM\nQSO: 14000 CW 2023-10-01 1200 N1MM 599 001 W1AW 599 001 0\nEND-OF-LOG: 3.0\n").data)
      ⟨[(("CALLSIGN").data, ("N1MM").data)],
        [⟨("14000").data, ("CW").data, ⟨2023, 10, 1⟩, ⟨12, 0⟩, ("N1MM").data,
          ("599 001").data, ("W1AW").data, ("599 001").data, some (("0").data)⟩]⟩
      (by rfl) (by decide)⟩
